import Mathlib

/-!
Verification of the dusk-network/wallet-core note-selection, key-derivation,
note-classification, balance, sanitization, FFI-word packing and
unproven-transaction-assembly logic, as a shallow embedding of the Rust
sources (src/utils.rs, src/imp.rs, src/key.rs, src/ffi.rs, src/tx.rs,
src/compat/crypto.rs, src/lib.rs).

Machine integers are modeled as `Nat` with the `u64` wrap or saturation made
explicit exactly where the source performs it: `saturating_add` saturates at
`2 ^ 64 - 1`, and plain `u64` addition / `.sum::<u64>()` wraps modulo `2 ^ 64`
(release-profile semantics of the shipped wasm artifact).
-/

namespace WalletCore

/-! ### u64 arithmetic -/

/-- The modulus of `u64`. -/
def U64LIM : Nat := 2 ^ 64

/-- `u64::MAX`. -/
def U64MAX : Nat := 2 ^ 64 - 1

/-- Rust `u64::saturating_add`. -/
def satAdd (a b : Nat) : Nat := min (a + b) U64MAX

/-- Rust `<u64 as Sum>::sum()` over a list of `u64` values: a fold of wrapping
additions, which equals the mathematical sum reduced modulo `2 ^ 64`. -/
def wsum (l : List Nat) : Nat := l.sum % U64LIM

/-- Left fold of `saturating_add`, as in the accumulation loops of the
source. -/
def satSum (l : List Nat) : Nat := l.foldl satAdd 0

/-! ### Constants (src/lib.rs, src/imp.rs) -/

/-- `MAX_INPUT_NOTES` (imp.rs line 41): hard cap on transaction inputs. -/
def MAX_INPUT_NOTES : Nat := 4

/-- `MAX_KEY` (lib.rs line 25): the maximum key index, inclusive. -/
def MAX_KEY : Nat := 24

/-! ### The selection pool (utils.rs `type Node = (Note, tx::Opening, u64, JubJubScalar)`)

The note, opening and blinder components are opaque to the selection
algorithm (it only ever reads the `u64` value at position 2 and moves whole
tuples around), so they are modeled as opaque `Nat` payloads. -/

structure Node where
  note : Nat
  opening : Nat
  value : Nat
  blinder : Nat
deriving DecidableEq, Repr

instance : Inhabited Node := ⟨⟨0, 0, 0, 0⟩⟩

/-- Total (mathematical) value of a pool of nodes. -/
def totalVal (l : List Node) : Nat := (l.map Node.value).sum

/-- `notes_and_values.sort_by(|(_, _, aval, _), (_, _, bval, _)| aval.cmp(bval))`:
stable ascending sort by the `u64` value (Rust `sort_by` is stable, as is
`List.mergeSort`). -/
def sortByValue (l : List Node) : List Node :=
  l.mergeSort fun x y => decide (x.value ≤ y.value)

/-! ### `pick_lexicographic` (utils.rs lines 230-266, identically imp.rs 871-907) -/

/-- The `[usize; MAX_INPUT_NOTES]` index array `indices` of
`pick_lexicographic`. -/
structure Idx4 where
  a : Nat
  b : Nat
  c : Nat
  d : Nat
deriving DecidableEq, Repr

/-- The indices of a combination, in array order. -/
def comboIdx (c : Idx4) : List Nat := [c.a, c.b, c.c, c.d]

/-- `indices.into_iter().map(|index| notes_and_values[index]).collect()`. -/
def comboGet (l : List Node) (c : Idx4) : List Node :=
  (comboIdx c).map fun i => l.getD i default

/-- `indices.iter().map(|index| notes_and_values[*index].2)` collected: the
values selected by a combination. -/
def comboVals (l : List Node) (c : Idx4) : List Nat :=
  (comboIdx c).map fun i => (l.getD i default).value

/-- Mathematical sum of the values selected by a combination. -/
def comboSum (l : List Node) (c : Idx4) : Nat := (comboVals l c).sum

/-- The scan
`while indices[i] == i + max_len - MAX_INPUT_NOTES { if i > 0 { i -= 1 } else { break } }`
starting from `i = MAX_INPUT_NOTES - 1 = 3`: the position at which the scan
stops. -/
def scanIdx (n : Nat) (c : Idx4) : Nat :=
  if c.d = 3 + n - 4 then
    if c.c = 2 + n - 4 then
      if c.b = 1 + n - 4 then 0 else 1
    else 2
  else 3

/-- `indices[i] += 1; for j in i + 1..MAX_INPUT_NOTES { indices[j] = indices[j - 1] + 1 }`
performed at scan position `i`. -/
def bumpIdx (c : Idx4) : Nat → Idx4
  | 0 => ⟨c.a + 1, c.a + 2, c.a + 3, c.a + 4⟩
  | 1 => ⟨c.a, c.b + 1, c.b + 2, c.b + 3⟩
  | 2 => ⟨c.a, c.b, c.c + 1, c.c + 2⟩
  | _ => ⟨c.a, c.b, c.c, c.d + 1⟩

/-- One advancement step of the `loop` body of `pick_lexicographic`. -/
def nextIdx (n : Nat) (c : Idx4) : Idx4 := bumpIdx c (scanIdx n c)

/-- The unbounded `loop { ... }` of `pick_lexicographic`: test the current
combination, otherwise advance it; `break` (yielding `None`) once
`indices[MAX_INPUT_NOTES - 1] == max_len`. The Rust loop carries no fuel; the
`fuel` argument is an iteration bound shown sufficient below (`n ^ 4`
dominates the number of 4-combinations of `n` indices ever visited). -/
def pickLexAux (n : Nat) (valid : Idx4 → Bool) : Nat → Idx4 → Option Idx4
  | 0, _ => none
  | fuel + 1, c =>
    if valid c then some c
    else
      let c' := nextIdx n c
      if c'.d = n then none
      else pickLexAux n valid fuel c'

/-- `pick_lexicographic(max_len, is_valid)` (utils.rs lines 230-266): starting
from `indices = [0, 1, 2, 3]`. -/
def pick_lexicographic (n : Nat) (valid : Idx4 → Bool) : Option Idx4 :=
  pickLexAux n valid (n ^ 4) ⟨0, 1, 2, 3⟩

/-! ### `pick_notes` (utils.rs lines 204-228, identically imp.rs 842-869 over
`(Note, u64, JubJubScalar)` triples) -/

/-- `pick_notes(value, notes_and_values)`: pools of at most `MAX_INPUT_NOTES`
notes are returned unchanged; larger pools are sorted ascending by value and
searched for the first 4-index combination whose `u64` sum reaches `value`
(`.unwrap_or_default()` yields the empty vector when no combination does). -/
def pick_notes (value : Nat) (notes_and_values : List Node) : List Node :=
  if notes_and_values.length ≤ MAX_INPUT_NOTES then notes_and_values
  else
    let sorted := sortByValue notes_and_values
    (Option.map (fun c => comboGet sorted c)
      (pick_lexicographic sorted.length
        fun c => decide (value ≤ wsum (comboVals sorted c)))).getD []

/-! ### `inputs` (utils.rs lines 173-192) -/

/-- The accumulation loop of `inputs`:
`while sum < target_sum && i < nodes.len() { sum = sum.saturating_add(nodes[i].2); i += 1 }`. -/
def inputsSumLoop (target : Nat) : Nat → List Nat → Nat
  | sum, [] => sum
  | sum, v :: rest => if sum < target then inputsSumLoop target (satAdd sum v) rest else sum

/-- `inputs(nodes, target_sum)` (utils.rs lines 173-192): `None` on an empty
pool or when the saturating sum of all values stays below the target,
otherwise `Some(pick_notes(target_sum, nodes))` - note that the inner
`pick_notes` result is wrapped in `Some` even when it is the empty vector. -/
def inputs (nodes : List Node) (target_sum : Nat) : Option (List Node) :=
  if nodes.isEmpty then none
  else
    let sum := inputsSumLoop target_sum 0 (nodes.map Node.value)
    if sum < target_sum then none
    else some (pick_notes target_sum nodes)

/-! ### The selection stage of `Wallet::inputs_and_change_output` (imp.rs lines 268-317) -/

/-- The two selection failures of `Wallet::inputs_and_change_output`. -/
inductive SelError where
  | notEnoughBalance
  | noteCombinationProblem
deriving DecidableEq, Repr

/-- The selection logic of `Wallet::inputs_and_change_output` (imp.rs lines
286-305), once the unspent notes have been decrypted into value-carrying
nodes: `accumulated_value += val` (plain wrapping `u64` addition), the
`NotEnoughBalance` check, `pick_notes`, and the `NoteCombinationProblem`
check on an empty pick. The change-output construction that follows operates
on the selection and is not part of the selection contract. -/
def inputs_and_change_sel (value : Nat) (notes_and_values : List Node) :
    Except SelError (List Node) :=
  let accumulated := (notes_and_values.map Node.value).foldl (fun a v => (a + v) % U64LIM) 0
  if accumulated < value then .error .notEnoughBalance
  else
    let inp := pick_notes value notes_and_values
    if inp.isEmpty then .error .noteCombinationProblem
    else .ok inp

/-! ### Specification-side vocabulary for the selection claims -/

/-- A strictly increasing 4-tuple of indices below `n`: the combinations that
`pick_lexicographic` ranges over. -/
def isCombo (n : Nat) (c : Idx4) : Prop :=
  c.a < c.b ∧ c.b < c.c ∧ c.c < c.d ∧ c.d < n

instance (n : Nat) (c : Idx4) : Decidable (isCombo n c) := by
  unfold isCombo; infer_instance

/-- Strict lexicographic order on index 4-tuples ("by increasing
index-tuples", spec section 4.3). -/
def lexLt (c c' : Idx4) : Prop :=
  c.a < c'.a ∨ (c.a = c'.a ∧ (c.b < c'.b ∨ (c.b = c'.b ∧
    (c.c < c'.c ∨ (c.c = c'.c ∧ c.d < c'.d)))))

instance (c c' : Idx4) : Decidable (lexLt c c') := by
  unfold lexLt; infer_instance

/-- The largest combination below `n`. -/
def lastCombo (n : Nat) : Idx4 := ⟨n - 4, n - 3, n - 2, n - 1⟩

/-- Rank of a combination in the lexicographic order (base-`n` encoding);
bookkeeping device for the loop-termination argument. -/
def enc (n : Nat) (c : Idx4) : Nat := ((c.a * n + c.b) * n + c.c) * n + c.d

/-- A nonempty selection of at most `MAX_INPUT_NOTES` notes from `pool`
(as a sub-list, i.e. sub-multiset up to order) covering `target`: the
success condition of the selection claims. -/
def coverExists (target : Nat) (pool : List Node) : Prop :=
  ∃ s ∈ pool.sublists, s ≠ [] ∧ s.length ≤ MAX_INPUT_NOTES ∧ target ≤ totalVal s

instance (target : Nat) (pool : List Node) : Decidable (coverExists target pool) := by
  unfold coverExists; infer_instance

/-! ### Notes as classified by the wallet (ffi.rs, compat/crypto.rs)

A `phoenix_core::Note` is opaque to this layer except for three capabilities
the source exercises: a view key of index `owner` (and only that one) owns
and decrypts it, decryption yields `value`, and `Note::hash()` is a
collision-free digest of its content (poseidon; modeled as an injective
encoding). `pos` stands for the remaining distinguishing content (tree
position etc.). -/

structure BNote where
  value : Nat
  owner : Nat
  pos : Nat
deriving DecidableEq, Repr

/-- `Note::hash()`: an injective content digest (idealized collision-free
poseidon hash). -/
def noteHash (n : BNote) : Nat := Nat.pair n.value (Nat.pair n.owner n.pos)

/-- Tail of Rust `Vec::dedup()` relative to the last kept element `prev`:
drop elements equal to `prev`, keep the first differing one and recurse on
it. -/
def dedupAdjAux (prev : BNote) : List BNote → List BNote
  | [] => []
  | b :: rest =>
    if prev = b then dedupAdjAux prev rest else b :: dedupAdjAux b rest

/-- Rust `Vec::dedup()`: collapse runs of consecutive equal elements to their
first element. -/
def dedupAdj : List BNote → List BNote
  | [] => []
  | a :: rest => a :: dedupAdjAux a rest

/-- `sanitize_notes` (utils.rs lines 159-163):
`notes.sort_by_key(|n| n.hash()); notes.dedup();` (stable sort by content
hash, then collapse consecutive duplicates). -/
def sanitize_notes (notes : List BNote) : List BNote :=
  dedupAdj (notes.mergeSort fun a b => decide (noteHash a ≤ noteHash b))

/-- `keys[idx].owns(&note)` / `note.value(Some(&keys[idx])).is_ok()`: the view
key of index `idx` owns the note exactly when `idx` is the note's owner
index. -/
def owns (idx : Nat) (note : BNote) : Bool := idx == note.owner

/-- The key-search loop `for idx in 0..=MAX_KEY { if <idx owns note> { ... break/continue 'outer } }`
shared by `balance`, `execute`, `nullifiers` (ffi.rs) and
`check_note_ownership` (compat/crypto.rs): try indices ascending from 0,
stop at the first owning index. `k` counts the remaining iterations. The
lazily-filled `keys` array of the source is a caching optimization with no
observable effect (slot `idx` always holds `derive_vk(seed, idx)` when
tested). -/
def firstOwnerAux (note : BNote) : Nat → Nat → Option Nat
  | 0, _ => none
  | k + 1, idx => if owns idx note then some idx else firstOwnerAux note k (idx + 1)

/-- First owning key index of a note among `0..=MAX_KEY`, if any. -/
def firstOwner (note : BNote) : Option Nat := firstOwnerAux note (MAX_KEY + 1) 0

/-- The note loop of `balance` (ffi.rs lines 102-119): for each note find an
owning key (else fail the whole call), push its decrypted value and
accumulate the saturating sum. -/
def balanceLoop : List BNote → List Nat → Nat → Option (List Nat × Nat)
  | [], values, sum => some (values, sum)
  | note :: rest, values, sum =>
    match firstOwner note with
    | some _ => balanceLoop rest (values ++ [note.value]) (satAdd sum note.value)
    | none => none

/-- `values.sort_by(|a, b| b.cmp(a))`: stable descending sort. -/
def sortValuesDesc (values : List Nat) : List Nat :=
  values.mergeSort fun a b => decide (b ≤ a)

/-- `balance` (ffi.rs lines 82-127), after argument deserialization: sanitize
the notes, decrypt every note by key search (any unowned note fails the
call), then report the saturating total and the `u64` sum of the 4 largest
values. -/
def balance (notes : List BNote) : Option (Nat × Nat) :=
  let notes := sanitize_notes notes
  match balanceLoop notes [] 0 with
  | none => none
  | some (values, sum) => some (sum, wsum ((sortValuesDesc values).take 4))

/-- `note.gen_nullifier(&keys_ssk[idx])`: deterministic function of the
owning secret key (index) and the note. -/
def genNullifierB (idx : Nat) (note : BNote) : Nat := Nat.pair idx (noteHash note)

/-- The note loop of `nullifiers` (ffi.rs lines 395-412): for each note find
an owning key index (else fail the whole call) and push the nullifier. The
notes are not sanitized by this entry point. -/
def nullifiersLoop : List BNote → List Nat → Option (List Nat)
  | [], acc => some acc
  | note :: rest, acc =>
    match firstOwner note with
    | some idx => nullifiersLoop rest (acc ++ [genNullifierB idx note])
    | none => none

/-- `nullifiers` (ffi.rs lines 375-423), after argument deserialization. -/
def nullifiers (notes : List BNote) : Option (List Nat) := nullifiersLoop notes []

/-- `types::CheckNoteOwnershipResponse`. -/
structure OwnershipResponse where
  is_owned : Bool
  nullifier : Nat
  public_spend_key : Option Nat
deriving DecidableEq, Repr

/-- `check_note_ownership` (compat/crypto.rs lines 37-90), after argument
deserialization: search `0..=MAX_KEY` for an owning view key; whether or not
one is found, the function returns a response through `utils::into_ptr`
(the success channel) - an unowned note yields `is_owned = false` with the
default nullifier, not a failure. The `public_spend_key` is that of the
owning index. -/
def check_note_ownership (note : BNote) : OwnershipResponse :=
  match firstOwner note with
  | some idx => ⟨true, genNullifierB idx note, some idx⟩
  | none => ⟨false, 0, none⟩

/-! ### Key derivation (key.rs, utils.rs `rng_with_index`)

SHA-256 and the ChaCha12 generator are external crates; they are abstracted
as an arbitrary digest function `sha` and arbitrary key-drawing functions,
bundled in `Crypto`. The streaming `sha2` API is modeled by its semantics:
the hasher state is the byte stream absorbed so far, `update` appends,
`finalize` applies the digest to the whole stream. -/

structure Crypto where
  sha : List Nat → List Nat
  skDraw : List Nat → Nat
  stakeSkDraw : List Nat → Nat
  vkOf : Nat → Nat

/-- `sha2::Sha256` incremental hasher state. -/
structure Hasher where
  absorbed : List Nat

/-- `Sha256::new()`. -/
def Hasher.new : Hasher := ⟨[]⟩

/-- `hash.update(data)`. -/
def Hasher.update (h : Hasher) (data : List Nat) : Hasher := ⟨h.absorbed ++ data⟩

/-- `hash.finalize()`. -/
def Hasher.finalize (sha : List Nat → List Nat) (h : Hasher) : List Nat :=
  sha h.absorbed

/-- `u64::to_le_bytes`: the 8 bytes of `x`, least significant first. -/
def toLeBytes8 (x : Nat) : List Nat :=
  [x % 256, x / 2 ^ 8 % 256, x / 2 ^ 16 % 256, x / 2 ^ 24 % 256,
   x / 2 ^ 32 % 256, x / 2 ^ 40 % 256, x / 2 ^ 48 % 256, x / 2 ^ 56 % 256]

/-- `rng_with_index` (utils.rs lines 143-156): absorb the seed, then the
little-endian index bytes, then the termination tag; seed ChaCha12 with the
digest. The returned generator is represented by its 32-byte seed (the
digest), from which the drawing functions of `Crypto` produce keys. -/
def rng_with_index (C : Crypto) (seed : List Nat) (index : Nat)
    (termination : List Nat) : List Nat :=
  Hasher.finalize C.sha
    (((Hasher.new.update seed).update (toLeBytes8 index)).update termination)

/-- The bytes of `b"SSK"`. -/
def SSK_TAG : List Nat := [83, 83, 75]

/-- The bytes of `b"SK"`. -/
def SK_TAG : List Nat := [83, 75]

/-- `derive_sk` (key.rs lines 30-32):
`SecretKey::random(&mut utils::rng_with_index(seed, index, b"SSK"))`. -/
def derive_sk (C : Crypto) (seed : List Nat) (index : Nat) : Nat :=
  C.skDraw (rng_with_index C seed index SSK_TAG)

/-- `derive_stake_sk` (key.rs lines 20-22):
`StakeSecretKey::random(&mut utils::rng_with_index(seed, index, b"SK"))`. -/
def derive_stake_sk (C : Crypto) (seed : List Nat) (index : Nat) : Nat :=
  C.stakeSkDraw (rng_with_index C seed index SK_TAG)

/-- `derive_vk` (key.rs lines 47-50): view key of the derived secret key. -/
def derive_vk (C : Crypto) (seed : List Nat) (index : Nat) : Nat :=
  C.vkOf (derive_sk C seed index)

/-- The key enumeration of `view_keys` (ffi.rs lines 353-355):
`(0..=MAX_KEY).map(|idx| key::derive_vk(&seed, idx as u64)).collect()`. -/
def view_keys (C : Crypto) (seed : List Nat) : List Nat :=
  (List.range (MAX_KEY + 1)).map fun idx => derive_vk C seed idx

/-! ### `compose` / `decompose` (utils.rs lines 23-51)

The `i64` result word is modeled by its `u64` bit pattern (a `Nat` below
`2 ^ 64`); the `i64` arithmetic right shifts of the source are commented
where they coincide with the logical operations used here. -/

/-- `MAX_ALLOC_LEN = 2u32.pow(24)`. -/
def MAX_ALLOC_LEN : Nat := 2 ^ 24

/-- `compose(success, ptr, len)` (utils.rs lines 27-38). The
`assert!(len <= MAX_ALLOC_LEN)` is a caller-facing precondition carried as a
hypothesis by the theorems below. `(!success) as u64` is the low bit, the
pointer occupies bits 32-63, and `((len << 40) >> 32)` places the low 24 bits
of `len` at bits 8-31. -/
def compose (success : Bool) (ptr len : Nat) : Nat :=
  let successBit : Nat := if success then 0 else 1
  let ptrField := (ptr <<< 32) % U64LIM
  let lenField := ((len <<< 40) % U64LIM) >>> 32
  successBit ||| ptrField ||| lenField

/-- `decompose(result)` (utils.rs lines 45-51). `(result >> 32) as u32` is an
`i64` arithmetic shift followed by truncation to 32 bits, which extracts bits
32-63 regardless of the sign bit, i.e. `(result >>> 32) % 2 ^ 32` on the bit
pattern; `result & 0xFFFFFFF0` is nonnegative, so the subsequent `>> 8` is a
logical shift; `((result << 63) >> 63) == 0` tests the low bit. -/
def decompose (result : Nat) : Bool × Nat × Nat :=
  let ptr := (result >>> 32) % 2 ^ 32
  let len := ((result &&& 0xFFFFFFF0) >>> 8) % 2 ^ 32
  let success := decide (((result <<< 63) % U64LIM) >>> 63 = 0)
  (success, ptr, len)

/-! ### `UnprovenTransaction::new` (tx.rs lines 142-297)

The elliptic-curve and hashing primitives are external; they are modeled as
injective encodings (`Nat.pair` chains) of exactly the operands the source
feeds them, so the data flow - which values are derived from which, and in
which order the fallible steps run - is preserved. The caller-supplied RNG
is represented by an opaque seed: the source only ever uses `rng.clone()`,
so every draw is a pure function of that seed. -/

structure MOpening where
  root : Nat
  branch : Nat
deriving DecidableEq, Repr

/-- `tx::PreInput`: note, opening, decrypted value and spending key, plus the
outcome of the only fallible per-input operation of the assembly
(`note.blinding_factor(Some(&vk))`). -/
structure MPreInput where
  note : Nat
  opening : MOpening
  value : Nat
  ssk : Nat
  blinderOk : Bool
  blinder : Nat
deriving DecidableEq, Repr

/-- `tx::Input`. -/
structure MInput where
  nullifier : Nat
  opening : MOpening
  note : Nat
  value : Nat
  blinder : Nat
  pk_r_prime : Nat
  sig : Nat
deriving DecidableEq, Repr

/-- `tx::Output`. -/
structure MOutput where
  note : Nat
  value : Nat
  blinder : Nat
deriving DecidableEq, Repr

/-- `types::ExecuteOutput`, with the outcome of the receiver decoding
(`utils::bs58_to_psk`). -/
structure MExecuteOutput where
  noteType : Bool
  receiver : Nat
  receiverOk : Bool
  refId : Nat
  value : Nat
deriving DecidableEq, Repr

/-- `types::ExecuteCall`, with the outcomes of the contract-id base58
decoding and of its length check. -/
structure MExecuteCall where
  contract : Nat
  contractDecodeOk : Bool
  contractLenOk : Bool
  method : Nat
  payload : Nat
deriving DecidableEq, Repr

/-- `tx::CallData`. -/
structure MCallData where
  contract : Nat
  method : Nat
  payload : Nat
deriving DecidableEq, Repr

/-- `types::CrossoverType`, with the outcomes of the two rkyv parses
performed inside the `and_then` closure. -/
structure MCrossoverArg where
  crossover : Nat
  crossoverParseOk : Bool
  blinder : Nat
  blinderParseOk : Bool
  value : Nat
deriving DecidableEq, Repr

/-- `tx::WasmCrossover`. -/
structure MWasmCrossover where
  crossover : Nat
  value : Nat
  blinder : Nat
deriving DecidableEq, Repr

/-- `tx::UnprovenTransaction`. -/
structure MUnprovenTx where
  inputs : List MInput
  outputs : List MOutput
  anchor : Nat
  fee : Nat
  crossover : Option MWasmCrossover
  call : Option MCallData
deriving DecidableEq, Repr

/-- `i.note.gen_nullifier(i.ssk)`. -/
def genNullifier (note ssk : Nat) : Nat := Nat.pair note ssk

/-- Injective encoding of a list, for the transaction-binding hash. -/
def encList (l : List Nat) : Nat := l.foldr Nat.pair 0

/-- Injective encoding of an optional component. -/
def encOpt (o : Option Nat) : Nat := o.elim 0 (Nat.pair 1)

/-- `JubJubScalar::random(rng.clone())` for the output `r`. -/
def drawR (rng : Nat) : Nat := Nat.pair rng 0

/-- `JubJubScalar::random(rng.clone())` for the output blinder. -/
def drawBlinder (rng : Nat) : Nat := Nat.pair rng 1

/-- `BlsScalar::random(&mut rng.clone())` for the output nonce. -/
def drawNonce (rng : Nat) : Nat := Nat.pair rng 2

/-- `Note::deterministic(type, &r, nonce, &receiver, value, blinder)`. -/
def mkDeterministicNote (ty : Bool) (r nonce receiver value blinder : Nat) : Nat :=
  Nat.pair (if ty then 1 else 0)
    (Nat.pair r (Nat.pair nonce (Nat.pair receiver (Nat.pair value blinder))))

/-- The output-construction loop of `UnprovenTransaction::new` (tx.rs lines
170-196): per requested output draw `r`, blinder and nonce from clones of the
rng, decode the receiver (`utils::bs58_to_psk(&receiver)?` fails the whole
assembly), and build the deterministic note. -/
def buildOutputs (rng : Nat) : List MExecuteOutput → Option (List MOutput)
  | [] => some []
  | o :: rest =>
    if o.receiverOk then
      match buildOutputs rng rest with
      | some tail =>
        some (⟨mkDeterministicNote o.noteType (drawR rng) (drawNonce rng)
                 o.receiver o.value (drawBlinder rng),
               o.value, drawBlinder rng⟩ :: tail)
      | none => none
    else none

/-- `ssk.sk_r(note.stealth_address())`. -/
def skR (ssk note : Nat) : Nat := Nat.pair ssk note

/-- `Transaction::hash_input_bytes_from_components(...)` then
`Hasher::digest`: the transaction-binding hash over, in order, the
nullifiers, output notes, anchor, fee, optional crossover and optional call
triple. -/
def txBindingHash (nullifiers outputNotes : List Nat) (anchor fee : Nat)
    (crossover : Option Nat) (call : Option MCallData) : Nat :=
  Nat.pair (encList nullifiers)
    (Nat.pair (encList outputNotes)
      (Nat.pair anchor
        (Nat.pair fee
          (Nat.pair (encOpt crossover)
            (encOpt (call.map fun c =>
              Nat.pair c.contract (Nat.pair c.method c.payload)))))))

/-- The input-finalization loop of `UnprovenTransaction::new` (tx.rs lines
254-287): for each pre-input recover the blinding factor (a failure collapses
the whole `collect::<Result<_, _>>().ok()?`), derive the one-time key, and
sign the transaction-binding hash. -/
def buildInputs (rng txHash : Nat) : List (MPreInput × Nat) → Option (List MInput)
  | [] => some []
  | (i, nf) :: rest =>
    if i.blinderOk then
      match buildInputs rng txHash rest with
      | some tail =>
        some (⟨nf, i.opening, i.note, i.value, i.blinder,
               Nat.pair 0 (skR i.ssk i.note),
               Nat.pair rng (Nat.pair (skR i.ssk i.note) txHash)⟩ :: tail)
      | none => none
    else none

/-- The contract-call resolution of `UnprovenTransaction::new` (tx.rs lines
200-219): base58-decode the contract id (`.ok()?`), reject a wrong length
(`return None`); `None` call data passes through. The outer `Option` is the
failure channel of the assembly, the inner one the presence of a call. -/
def resolveCall : Option MExecuteCall → Option (Option MCallData)
  | none => some none
  | some c =>
    if c.contractDecodeOk then
      if c.contractLenOk then some (some ⟨c.contract, c.method, c.payload⟩)
      else none
    else none

/-- The crossover resolution of `UnprovenTransaction::new` (tx.rs lines
224-242): `crossover.and_then(|c| Some({ ..rkyv parses with `?`.. }))` - a
parse failure inside the closure silently drops the crossover rather than
failing the assembly. -/
def resolveCrossover : Option MCrossoverArg → Option MWasmCrossover
  | none => none
  | some cr =>
    if cr.crossoverParseOk then
      if cr.blinderParseOk then some ⟨cr.crossover, cr.value, cr.blinder⟩
      else none
    else none

/-- `UnprovenTransaction::new` (tx.rs lines 142-297), in source order:
nullifiers from the pre-inputs; the anchor from the first input's opening
root (`inputs.first().map(|i| i.opening.root().hash)?` - an empty input list
fails the assembly); the outputs; the call; the crossover; the
transaction-binding hash; the finalized signed inputs; the aggregate. -/
def unprovenTxNew (rng : Nat) (inputs : List MPreInput)
    (outputs : List MExecuteOutput) (fee : Nat)
    (crossover : Option MCrossoverArg) (call : Option MExecuteCall) :
    Option MUnprovenTx :=
  let nullifierList := inputs.map fun i => genNullifier i.note i.ssk
  match inputs.head? with
  | none => none
  | some first =>
    let anchor := first.opening.root
    match buildOutputs rng outputs with
    | none => none
    | some outs =>
      match resolveCall call with
      | none => none
      | some callData =>
        let crossoverData := resolveCrossover crossover
        let txHash := txBindingHash nullifierList (outs.map MOutput.note)
          anchor fee (crossoverData.map MWasmCrossover.crossover) callData
        match buildInputs rng txHash (inputs.zip nullifierList) with
        | none => none
        | some finalInputs =>
          some ⟨finalInputs, outs, anchor, fee, crossoverData, callData⟩

/-! ### Concrete fixtures (from the crate's own tests and the spec's scenarios) -/

instance : Inhabited MUnprovenTx := ⟨⟨[], [], 0, 0, none, none⟩⟩

/-- The pool of `note_picking_none` / `note_picking_4_plus` (imp.rs tests):
values `[2, 1, 4, 3, 5, 7, 6]`, i.e. the value set `{1, ..., 7}`. -/
def pool7 : List Node :=
  [⟨0, 0, 2, 0⟩, ⟨1, 0, 1, 0⟩, ⟨2, 0, 4, 0⟩, ⟨3, 0, 3, 0⟩,
   ⟨4, 0, 5, 0⟩, ⟨5, 0, 7, 0⟩, ⟨6, 0, 6, 0⟩]

/-- Five notes of value 10: total 50, but no 4 of them reach 45. -/
def poolFive10 : List Node :=
  [⟨0, 0, 10, 0⟩, ⟨1, 0, 10, 0⟩, ⟨2, 0, 10, 0⟩, ⟨3, 0, 10, 0⟩, ⟨4, 0, 10, 0⟩]

/-- Five notes of value `2 ^ 62`: any four of them sum to `2 ^ 64`, which
wraps to 0 in the `u64` combination sums. -/
def poolOverflow : List Node :=
  [⟨0, 0, 2 ^ 62, 0⟩, ⟨1, 0, 2 ^ 62, 0⟩, ⟨2, 0, 2 ^ 62, 0⟩,
   ⟨3, 0, 2 ^ 62, 0⟩, ⟨4, 0, 2 ^ 62, 0⟩]

/-- The balance scenario of the spec: values `[10, 250, 15, 39, 55]`, all
owned by key index 0, pairwise distinct notes. -/
def balScenario : List BNote :=
  [⟨10, 0, 0⟩, ⟨250, 0, 1⟩, ⟨15, 0, 2⟩, ⟨39, 0, 3⟩, ⟨55, 0, 4⟩]

/-- A concrete `Crypto` instantiation for witnesses. -/
def C0 : Crypto := ⟨id, List.sum, List.length, Nat.succ⟩

/-- A concrete pre-input whose opening carries Merkle root 7. -/
def cPre : MPreInput := ⟨1, ⟨7, 0⟩, 5, 3, true, 9⟩

/-- The transaction assembled from `cPre`. -/
def cTx : MUnprovenTx := (unprovenTxNew 0 [cPre] [] 2 none none).getD default

/-! ## Theorems -/

/-! ### C3: small pools are returned unchanged -/

/-- C3: for every pool containing at most 4 notes, `pick_notes` returns the
entire pool unchanged (the `len <= MAX_INPUT_NOTES` early return fires before
the sort and the combinatorial search). -/
theorem c3_pick_notes_small_pool (value : Nat) (pool : List Node)
    (h : pool.length ≤ 4) : pick_notes value pool = pool := by
  unfold pick_notes
  rw [if_pos (by simpa [MAX_INPUT_NOTES] using h)]

/-- Witness for C3 at the `note_picking_3` fixture: pool of values
`[1, 3, 2]`, target 2. -/
theorem c3_pick_notes_small_pool_witness :
    ([⟨0, 0, 1, 0⟩, ⟨1, 0, 3, 0⟩, ⟨2, 0, 2, 0⟩] : List Node).length ≤ 4 ∧
    pick_notes 2 [⟨0, 0, 1, 0⟩, ⟨1, 0, 3, 0⟩, ⟨2, 0, 2, 0⟩] =
      [⟨0, 0, 1, 0⟩, ⟨1, 0, 3, 0⟩, ⟨2, 0, 2, 0⟩] :=
  ⟨by decide, c3_pick_notes_small_pool 2 _ (by decide)⟩

/-! ### C5: key derivation structure and determinism -/

/-- C5: for every seed, index and abstract digest/draw functions,
`derive_sk` (context tag `b"SSK"`) and `derive_stake_sk` (context tag
`b"SK"`) hash exactly `seed ‖ little-endian(index) ‖ tag` through the
incremental hasher, seed the ChaCha12 generator with the digest, and draw
the key from that stream; being pure functions of `(seed, index, tag)`, the
same arguments always reproduce identical key material. -/
theorem c5_key_derivation (C : Crypto) (seed : List Nat) (index : Nat) :
    derive_sk C seed index =
      C.skDraw (C.sha (seed ++ toLeBytes8 index ++ SSK_TAG)) ∧
    derive_stake_sk C seed index =
      C.stakeSkDraw (C.sha (seed ++ toLeBytes8 index ++ SK_TAG)) ∧
    (∀ seed2 index2, seed2 = seed → index2 = index →
      derive_sk C seed2 index2 = derive_sk C seed index) := by
  refine ⟨?_, ?_, ?_⟩
  · simp [derive_sk, rng_with_index, Hasher.new, Hasher.update, Hasher.finalize,
      List.append_assoc]
  · simp [derive_stake_sk, rng_with_index, Hasher.new, Hasher.update,
      Hasher.finalize, List.append_assoc]
  · rintro s i rfl rfl; rfl

/-- Witness for C5 at a concrete crypto instantiation, seed and index. -/
theorem c5_key_derivation_witness :
    derive_sk C0 [5] 7 = C0.skDraw (C0.sha ([5] ++ toLeBytes8 7 ++ SSK_TAG)) ∧
    derive_sk C0 [5] 7 = derive_sk C0 [5] 7 :=
  ⟨(c5_key_derivation C0 [5] 7).1, (c5_key_derivation C0 [5] 7).2.2 [5] 7 rfl rfl⟩

/-! ### C6: unproven-transaction assembly -/

/-- C6: `UnprovenTransaction::new` fails on an empty input list (the anchor
extraction `inputs.first().map(..)?` has nothing to read), and on success the
transaction's anchor is the Merkle root carried by the first input's
opening. -/
theorem c6_unproven_tx (rng : Nat) (outputs : List MExecuteOutput) (fee : Nat)
    (crossover : Option MCrossoverArg) (call : Option MExecuteCall) :
    unprovenTxNew rng [] outputs fee crossover call = none ∧
    (∀ (inputs : List MPreInput) (t : MUnprovenTx),
      unprovenTxNew rng inputs outputs fee crossover call = some t →
      ∃ i rest, inputs = i :: rest ∧ t.anchor = i.opening.root) := by
  constructor
  · rfl
  · intro inputs t h
    match inputs with
    | [] => simp [unprovenTxNew] at h
    | i :: rest =>
      refine ⟨i, rest, rfl, ?_⟩
      rw [unprovenTxNew] at h
      simp only [List.head?_cons] at h
      split at h
      · exact absurd h (by simp)
      · split at h
        · exact absurd h (by simp)
        · split at h
          · exact absurd h (by simp)
          · cases h; rfl

/-- Witness for C6: a one-input assembly whose anchor is the root 7 carried
by that input's opening. -/
theorem c6_unproven_tx_witness :
    ∃ i rest, [cPre] = i :: rest ∧ cTx.anchor = i.opening.root :=
  (c6_unproven_tx 0 [] 2 none none).2 [cPre] cTx rfl

/-! ### C7: ownership-classification failure behavior -/

/-- Closed form of the ascending key search: the loop finds exactly the
owner index when it lies in the window. -/
theorem firstOwnerAux_eq (note : BNote) :
    ∀ (k start : Nat),
      firstOwnerAux note k start =
        if start ≤ note.owner ∧ note.owner < start + k then some note.owner
        else none := by
  intro k
  induction k with
  | zero =>
    intro start
    rw [firstOwnerAux, if_neg (by omega)]
  | succ k ih =>
    intro start
    rw [firstOwnerAux]
    by_cases h : owns start note
    · have hs : start = note.owner := by simpa [owns, beq_iff_eq] using h
      subst hs
      rw [if_pos h, if_pos (by omega)]
    · have hne : start ≠ note.owner := by simpa [owns, beq_iff_eq] using h
      rw [if_neg h, ih]
      split <;> split <;> first | rfl | omega

/-- The key search tries indices `0..=MAX_KEY` ascending and finds exactly
an owner in that range. -/
theorem firstOwner_eq (note : BNote) :
    firstOwner note =
      if note.owner ≤ MAX_KEY then some note.owner else none := by
  rw [firstOwner, firstOwnerAux_eq]
  split <;> split <;> first | rfl | omega

/-- Success/failure shape of the `nullifiers` note loop. -/
theorem nullifiersLoop_spec :
    ∀ (l : List BNote) (acc : List Nat),
      (nullifiersLoop l acc = none ↔ ∃ n ∈ l, MAX_KEY < n.owner) ∧
      (∀ r, nullifiersLoop l acc = some r → r.length = acc.length + l.length) := by
  intro l
  induction l with
  | nil => intro acc; simp [nullifiersLoop]
  | cons n rest ih =>
    intro acc
    rw [nullifiersLoop, firstOwner_eq]
    by_cases h : n.owner ≤ MAX_KEY
    · rw [if_pos h]
      constructor
      · rw [(ih _).1]
        constructor
        · rintro ⟨m, hm, hown⟩; exact ⟨m, by simp [hm], hown⟩
        · rintro ⟨m, hm, hown⟩
          rcases List.mem_cons.mp hm with rfl | hm
          · omega
          · exact ⟨m, hm, hown⟩
      · intro r hr
        have := (ih _).2 r hr
        simp at this ⊢
        omega
    · rw [if_neg h]
      constructor
      · simp only [true_iff]
        exact ⟨n, by simp, by omega⟩
      · intro r hr; cases hr

/-- C7 (amended): the `nullifiers` FFI operation fails, as a whole, exactly
when some submitted note is owned by no derivable key index, and on success
emits one nullifier per submitted note (nothing is silently skipped);
`check_note_ownership`, by contrast, answers through the success channel
with `is_owned = false` for an unowned note. -/
theorem c7_ownership_failure (notes : List BNote) :
    (nullifiers notes = none ↔ ∃ n ∈ notes, MAX_KEY < n.owner) ∧
    (∀ r, nullifiers notes = some r → r.length = notes.length) ∧
    (∀ note : BNote, MAX_KEY < note.owner →
      check_note_ownership note = ⟨false, 0, none⟩) := by
  refine ⟨(nullifiersLoop_spec notes []).1, ?_, ?_⟩
  · intro r hr
    simpa using (nullifiersLoop_spec notes []).2 r hr
  · intro note h
    rw [check_note_ownership, firstOwner_eq, if_neg (by omega)]

/-- Counterexample for C7 as stated: the note `⟨5, 25, 0⟩` is owned by no
key index in `0..=MAX_KEY` (its owner index 25 is out of range), yet
`check_note_ownership` returns a success response marking it as not owned,
rather than a failure outcome. -/
theorem c7_ownership_counterexample :
    MAX_KEY < (⟨5, 25, 0⟩ : BNote).owner ∧
    check_note_ownership ⟨5, 25, 0⟩ = ⟨false, 0, none⟩ := by decide

/-- Witness for C7: both failure channels exercised at concrete notes. -/
theorem c7_ownership_witness :
    (nullifiers [⟨5, 30, 0⟩] = none ↔ ∃ n ∈ [(⟨5, 30, 0⟩ : BNote)], MAX_KEY < n.owner) ∧
    check_note_ownership ⟨5, 30, 0⟩ = ⟨false, 0, none⟩ :=
  ⟨(c7_ownership_failure [⟨5, 30, 0⟩]).1,
   (c7_ownership_failure []).2.2 ⟨5, 30, 0⟩ (by decide)⟩

/-! ### C8: sanitization is canonical -/

/-- The modeled `Note::hash()` is collision-free. -/
theorem noteHash_inj {m n : BNote} (h : noteHash m = noteHash n) : m = n := by
  cases m; cases n
  simp only [noteHash] at h
  have h1 := Nat.pair_eq_pair.mp h
  have h2 := Nat.pair_eq_pair.mp h1.2
  simp_all

/-- Membership through the dedup tail: elements come from the list, and a
list element is either the previous kept element or survives. -/
theorem mem_dedupAdjAux (p : BNote) (l : List BNote) (x : BNote) :
    (x ∈ dedupAdjAux p l → x ∈ l) ∧ (x ∈ l → x = p ∨ x ∈ dedupAdjAux p l) := by
  induction l generalizing p with
  | nil => simp [dedupAdjAux]
  | cons b rest ih =>
    rw [dedupAdjAux]
    by_cases h : p = b
    · rw [if_pos h]
      constructor
      · intro hx; exact List.mem_cons_of_mem _ ((ih p).1 hx)
      · intro hx
        rcases List.mem_cons.mp hx with rfl | hx
        · exact Or.inl h.symm
        · exact (ih p).2 hx
    · rw [if_neg h]
      constructor
      · intro hx
        rcases List.mem_cons.mp hx with rfl | hx
        · exact List.mem_cons_self _ _
        · exact List.mem_cons_of_mem _ ((ih b).1 hx)
      · intro hx
        rcases List.mem_cons.mp hx with rfl | hx
        · exact Or.inr (List.mem_cons_self _ _)
        · rcases (ih b).2 hx with rfl | h1
          · exact Or.inr (List.mem_cons_self _ _)
          · exact Or.inr (List.mem_cons_of_mem _ h1)

/-- Adjacent deduplication preserves membership. -/
theorem mem_dedupAdj (l : List BNote) (x : BNote) : x ∈ dedupAdj l ↔ x ∈ l := by
  cases l with
  | nil => simp [dedupAdj]
  | cons a rest =>
    rw [dedupAdj]
    constructor
    · intro hx
      rcases List.mem_cons.mp hx with rfl | hx
      · exact List.mem_cons_self _ _
      · exact List.mem_cons_of_mem _ ((mem_dedupAdjAux a rest x).1 hx)
    · intro hx
      rcases List.mem_cons.mp hx with rfl | hx
      · exact List.mem_cons_self _ _
      · rcases (mem_dedupAdjAux a rest x).2 hx with rfl | h1
        · exact List.mem_cons_self _ _
        · exact List.mem_cons_of_mem _ h1

/-- The dedup tail is a sublist. -/
theorem dedupAdjAux_sublist (p : BNote) (l : List BNote) : (dedupAdjAux p l).Sublist l := by
  induction l generalizing p with
  | nil => simp [dedupAdjAux]
  | cons b rest ih =>
    rw [dedupAdjAux]
    by_cases h : p = b
    · rw [if_pos h]
      exact (ih p).trans (List.sublist_cons_self b rest)
    · rw [if_neg h]
      exact List.Sublist.cons₂ b (ih b)

/-- Adjacent deduplication yields a sublist. -/
theorem dedupAdj_sublist (l : List BNote) : (dedupAdj l).Sublist l := by
  cases l with
  | nil => exact List.Sublist.refl _
  | cons a rest => exact List.Sublist.cons₂ a (dedupAdjAux_sublist a rest)

/-- On a hash-sorted list, adjacent deduplication leaves no duplicates
(equal notes have equal hashes, so they are contiguous after sorting). -/
theorem nodup_cons_dedupAdjAux (l : List BNote) :
    ∀ p : BNote, List.Pairwise (fun a b => noteHash a ≤ noteHash b) (p :: l) →
      (p :: dedupAdjAux p l).Nodup := by
  induction l with
  | nil => intro p _; simp [dedupAdjAux]
  | cons b rest ih =>
    intro p hp
    rw [dedupAdjAux]
    rcases List.pairwise_cons.mp hp with ⟨hpAll, hbrest⟩
    by_cases h : p = b
    · rw [if_pos h]
      apply ih p
      rcases List.pairwise_cons.mp hbrest with ⟨hbAll, hrest⟩
      exact List.pairwise_cons.mpr
        ⟨fun x hx => hpAll x (List.mem_cons_of_mem _ hx), hrest⟩
    · rw [if_neg h]
      have hNd : (b :: dedupAdjAux b rest).Nodup := ih b hbrest
      refine List.nodup_cons.mpr ⟨?_, hNd⟩
      intro hmem
      rcases List.mem_cons.mp hmem with rfl | hmem2
      · exact h rfl
      · have hpmem : p ∈ rest := (mem_dedupAdjAux b rest p).1 hmem2
        rcases List.pairwise_cons.mp hbrest with ⟨hbAll, _⟩
        have h1 : noteHash p ≤ noteHash b := hpAll b (List.mem_cons_self _ _)
        have h2 : noteHash b ≤ noteHash p := hbAll p hpmem
        exact h (noteHash_inj (le_antisymm h1 h2))

/-- Adjacent deduplication of a hash-sorted list has no duplicates. -/
theorem nodup_dedupAdj (l : List BNote)
    (h : List.Pairwise (fun a b => noteHash a ≤ noteHash b) l) :
    (dedupAdj l).Nodup := by
  cases l with
  | nil => simp [dedupAdj]
  | cons a rest => exact nodup_cons_dedupAdjAux rest a h

/-- Sanitization preserves the note set. -/
theorem sanitize_mem (l : List BNote) (x : BNote) :
    x ∈ sanitize_notes l ↔ x ∈ l := by
  rw [sanitize_notes, mem_dedupAdj, List.mem_mergeSort]

/-- The sanitized list is sorted by content hash. -/
theorem sanitize_sorted (l : List BNote) :
    (sanitize_notes l).Pairwise fun a b => noteHash a ≤ noteHash b := by
  rw [sanitize_notes]
  refine List.Pairwise.sublist (dedupAdj_sublist _) ?_
  refine List.Pairwise.imp (fun h => of_decide_eq_true h) ?_
  exact List.sorted_mergeSort
    (by intro a b c; simp only [decide_eq_true_eq]; omega)
    (by intro a b; simp only [Bool.or_eq_true, decide_eq_true_eq]; omega) l

/-- The sanitized list has no duplicate notes. -/
theorem sanitize_nodup (l : List BNote) : (sanitize_notes l).Nodup := by
  rw [sanitize_notes]
  apply nodup_dedupAdj
  refine List.Pairwise.imp (fun h => of_decide_eq_true h) ?_
  exact List.sorted_mergeSort
    (by intro a b c; simp only [decide_eq_true_eq]; omega)
    (by intro a b; simp only [Bool.or_eq_true, decide_eq_true_eq]; omega) l

/-- Sanitization is determined by the note set: two lists with the same
members sanitize to the same canonical list. -/
theorem sanitize_eq_of_mem_iff {l₁ l₂ : List BNote}
    (h : ∀ x, x ∈ l₁ ↔ x ∈ l₂) : sanitize_notes l₁ = sanitize_notes l₂ := by
  haveI : IsAntisymm BNote (fun a b => noteHash a ≤ noteHash b) :=
    ⟨fun a b h1 h2 => noteHash_inj (le_antisymm h1 h2)⟩
  refine List.eq_of_perm_of_sorted (r := fun a b => noteHash a ≤ noteHash b)
    ?_ (sanitize_sorted l₁) (sanitize_sorted l₂)
  refine (List.perm_ext_iff_of_nodup (sanitize_nodup l₁) (sanitize_nodup l₂)).mpr ?_
  intro a
  rw [sanitize_mem, sanitize_mem]
  exact h a

/-- C8: note sanitization absorbs duplication and is idempotent: for every
list of notes `xs`, `sanitize_notes (xs ++ xs) = sanitize_notes xs` and
`sanitize_notes (sanitize_notes xs) = sanitize_notes xs`. -/
theorem c8_sanitize_idempotent (xs : List BNote) :
    sanitize_notes (xs ++ xs) = sanitize_notes xs ∧
    sanitize_notes (sanitize_notes xs) = sanitize_notes xs :=
  ⟨sanitize_eq_of_mem_iff (by simp),
   sanitize_eq_of_mem_iff (sanitize_mem xs)⟩

/-! ### C10: key iteration bounds -/

/-- C10: view-key enumeration produces exactly `MAX_KEY + 1 = 25` keys, the
key at position `i` being the one derived for index `i` (indices `0..=24`
ascending); and the key-search loop finds exactly the first owning index in
`0..=MAX_KEY`. -/
theorem c10_key_iteration (C : Crypto) (seed : List Nat) :
    (view_keys C seed).length = MAX_KEY + 1 ∧
    MAX_KEY + 1 = 25 ∧
    (∀ i, i < MAX_KEY + 1 → (view_keys C seed).getD i 0 = derive_vk C seed i) ∧
    (∀ note : BNote,
      firstOwner note = if note.owner ≤ MAX_KEY then some note.owner else none) ∧
    (∀ (note : BNote) (idx : Nat), firstOwner note = some idx →
      owns idx note = true ∧ ∀ j, j < idx → owns j note = false) := by
  refine ⟨by simp [view_keys], rfl, ?_, firstOwner_eq, ?_⟩
  · intro i hi
    simp [view_keys, List.getD_eq_getElem?_getD, List.getElem?_map,
      List.getElem?_range hi]
  · intro note idx h
    rw [firstOwner_eq] at h
    split at h
    · cases h
      refine ⟨by simp [owns], ?_⟩
      intro j hj
      simp only [owns, beq_eq_false_iff_ne, ne_eq]
      omega
    · cases h

/-- Witness for C10 at a concrete crypto instantiation and note. -/
theorem c10_key_iteration_witness :
    (view_keys C0 [1]).getD 2 0 = derive_vk C0 [1] 2 ∧
    (owns 3 ⟨9, 3, 0⟩ = true ∧ ∀ j, j < 3 → owns j ⟨9, 3, 0⟩ = false) :=
  ⟨(c10_key_iteration C0 [1]).2.2.1 2 (by decide),
   (c10_key_iteration C0 [1]).2.2.2.2 ⟨9, 3, 0⟩ 3 (by decide)⟩

/-! ### C4: balance -/

/-- The balance loop succeeds on fully-owned note lists, collecting the
values in order and saturating the running total. -/
theorem balanceLoop_eq :
    ∀ (l : List BNote) (values : List Nat) (sum : Nat),
      (∀ n ∈ l, n.owner ≤ MAX_KEY) →
      balanceLoop l values sum =
        some (values ++ l.map BNote.value,
              List.foldl satAdd sum (l.map BNote.value)) := by
  intro l
  induction l with
  | nil => intro values sum _; simp [balanceLoop]
  | cons n rest ih =>
    intro values sum h
    rw [balanceLoop, firstOwner_eq, if_pos (h n (List.mem_cons_self _ _))]
    rw [ih _ _ fun m hm => h m (List.mem_cons_of_mem _ hm)]
    simp

unseal List.merge List.mergeSort in
/-- C4 (amended): for every list of notes each decryptable by some wallet
key, `balance` succeeds with `value` the saturating `u64` sum of the
deduplicated notes' decrypted values and `maximum` the `u64` sum of the 4
largest deduplicated values; in particular the spec scenario
`[10, 250, 15, 39, 55]` yields `value = 369` and `maximum = 359`. -/
theorem c4_balance_dedup (notes : List BNote)
    (h : ∀ n ∈ notes, n.owner ≤ MAX_KEY) :
    balance notes =
      some (satSum ((sanitize_notes notes).map BNote.value),
        wsum ((sortValuesDesc ((sanitize_notes notes).map BNote.value)).take 4)) ∧
    balance balScenario = some (369, 359) := by
  constructor
  · rw [balance, balanceLoop_eq _ _ _ fun n hn => h n ((sanitize_mem notes n).1 hn)]
    simp [satSum]
  · decide

unseal List.merge List.mergeSort in
/-- Counterexample for C4 as stated: submitting the same note twice, the
balance is the value of the deduplicated set (10), not the saturating sum of
all the submitted notes' values (20): `sanitize_notes` collapses the
duplicate before summation. -/
theorem c4_balance_counterexample :
    balance [⟨10, 0, 0⟩, ⟨10, 0, 0⟩] = some (10, 10) ∧
    satSum (([⟨10, 0, 0⟩, ⟨10, 0, 0⟩] : List BNote).map BNote.value) = 20 := by
  decide

unseal List.merge List.mergeSort in
/-- Witness for C4 at the spec's balance scenario. -/
theorem c4_balance_dedup_witness :
    balance balScenario =
      some (satSum ((sanitize_notes balScenario).map BNote.value),
        wsum ((sortValuesDesc ((sanitize_notes balScenario).map BNote.value)).take 4)) :=
  (c4_balance_dedup balScenario (by decide)).1

/-! ### C9: compose / decompose roundtrip -/

/-- Field extraction from the packed word, for a generic status bit. -/
theorem word_fields (b ptr len : Nat) (hb : b < 2) (hp : ptr < 2 ^ 32) :
    ((b ||| ptr * 2 ^ 32 ||| (len % 2 ^ 24) * 2 ^ 8) % 2 = b) ∧
    (((b ||| ptr * 2 ^ 32 ||| (len % 2 ^ 24) * 2 ^ 8) >>> 32) % 2 ^ 32 = ptr) ∧
    ((((b ||| ptr * 2 ^ 32 ||| (len % 2 ^ 24) * 2 ^ 8) &&& 0xFFFFFFF0) >>> 8) % 2 ^ 32
      = len % 2 ^ 24) := by
  have hbbit : ∀ j, 1 ≤ j → b.testBit j = false := by
    intro j hj
    apply Nat.testBit_lt_two_pow
    calc b < 2 := hb
      _ = 2 ^ 1 := by norm_num
      _ ≤ 2 ^ j := Nat.pow_le_pow_right (by norm_num) hj
  refine ⟨?_, ?_, ?_⟩
  · have h1 : (ptr * 2 ^ 32).testBit 0 = false := by
      rw [← Nat.shiftLeft_eq, Nat.testBit_shiftLeft]
      simp
    have h2 : ((len % 2 ^ 24) * 2 ^ 8).testBit 0 = false := by
      rw [← Nat.shiftLeft_eq, Nat.testBit_shiftLeft]
      simp
    have h0 : (b ||| ptr * 2 ^ 32 ||| (len % 2 ^ 24) * 2 ^ 8).testBit 0 = b.testBit 0 := by
      simp only [Nat.testBit_lor, h1, h2]
      simp
    simp only [Nat.testBit_zero, decide_eq_decide] at h0
    omega
  · apply Nat.eq_of_testBit_eq
    intro i
    simp only [Nat.testBit_mod_two_pow, Nat.testBit_shiftRight, Nat.testBit_lor]
    have h1 : (ptr * 2 ^ 32).testBit (32 + i) = ptr.testBit i := by
      rw [← Nat.shiftLeft_eq, Nat.testBit_shiftLeft]
      simp
    have h2 : ((len % 2 ^ 24) * 2 ^ 8).testBit (32 + i) = false := by
      apply Nat.testBit_lt_two_pow
      calc (len % 2 ^ 24) * 2 ^ 8 < 2 ^ 24 * 2 ^ 8 :=
            (Nat.mul_lt_mul_right (by norm_num)).mpr (Nat.mod_lt _ (by norm_num))
        _ = 2 ^ 32 := by norm_num
        _ ≤ 2 ^ (32 + i) := Nat.pow_le_pow_right (by norm_num) (by omega)
    rw [hbbit (32 + i) (by omega), h1, h2]
    by_cases h : i < 32
    · simp [h]
    · have hbit : ptr.testBit i = false :=
        Nat.testBit_lt_two_pow
          (lt_of_lt_of_le hp (Nat.pow_le_pow_right (by norm_num) (by omega)))
      simp [h, hbit]
  · apply Nat.eq_of_testBit_eq
    intro i
    simp only [Nat.testBit_mod_two_pow, Nat.testBit_shiftRight, Nat.testBit_and,
      Nat.testBit_lor]
    have hmask : (0xFFFFFFF0 : Nat).testBit (8 + i) = decide (i < 24) := by
      rw [show (0xFFFFFFF0 : Nat) = (2 ^ 28 - 1) <<< 4 by norm_num [Nat.shiftLeft_eq],
        Nat.testBit_shiftLeft, Nat.testBit_two_pow_sub_one]
      simp only [ge_iff_le, show (4 : Nat) ≤ 8 + i from by omega, decide_True, Bool.true_and]
      exact decide_eq_decide.mpr (by omega)
    have h1 : (ptr * 2 ^ 32).testBit (8 + i) =
        (decide (8 + i ≥ 32) && ptr.testBit (8 + i - 32)) := by
      rw [← Nat.shiftLeft_eq, Nat.testBit_shiftLeft]
    have h2 : ((len % 2 ^ 24) * 2 ^ 8).testBit (8 + i) = (len % 2 ^ 24).testBit i := by
      rw [← Nat.shiftLeft_eq, Nat.testBit_shiftLeft]
      simp
    rw [hbbit (8 + i) (by omega), h1, h2, hmask]
    by_cases h24 : i < 24
    · have hx : ¬ (8 + i ≥ 32) := by omega
      have hfield : (len % 2 ^ 24).testBit i = (decide (i < 24) && len.testBit i) := by
        rw [Nat.testBit_mod_two_pow]
      simp only [h24, hx, hfield]
      simp [show i < 32 from by omega]
    · have hfield : (len % 2 ^ 24).testBit i = false :=
        Nat.testBit_lt_two_pow
          (lt_of_lt_of_le (Nat.mod_lt _ (by norm_num))
            (Nat.pow_le_pow_right (by norm_num) (by omega)))
      simp [h24, hfield]


/-- `((u << 63) >> 63)` extracts the low bit. -/
theorem shift63_mod (u : Nat) : ((u <<< 63) % U64LIM) >>> 63 = u % 2 := by
  rw [Nat.shiftLeft_eq, U64LIM, show (2 : Nat) ^ 64 = 2 * 2 ^ 63 by norm_num,
    Nat.mul_mod_mul_right, Nat.shiftRight_eq_div_pow]
  exact Nat.mul_div_cancel _ (by norm_num)

theorem decompose_compose (success : Bool) (ptr len : Nat)
    (hp : ptr < 2 ^ 32) :
    decompose (compose success ptr len) = (success, ptr, len % 2 ^ 24) := by
  have hb : (if success then (0 : Nat) else 1) < 2 := by cases success <;> simp
  have hptrF : (ptr <<< 32) % U64LIM = ptr * 2 ^ 32 := by
    rw [Nat.shiftLeft_eq]
    apply Nat.mod_eq_of_lt
    calc ptr * 2 ^ 32 < 2 ^ 32 * 2 ^ 32 := (Nat.mul_lt_mul_right (by norm_num)).mpr hp
      _ = U64LIM := by norm_num [U64LIM]
  have hlenF : ((len <<< 40) % U64LIM) >>> 32 = (len % 2 ^ 24) * 2 ^ 8 := by
    rw [Nat.shiftLeft_eq, U64LIM, show (2 : Nat) ^ 64 = 2 ^ 24 * 2 ^ 40 by norm_num,
      Nat.mul_mod_mul_right, Nat.shiftRight_eq_div_pow,
      show (2 : Nat) ^ 40 = 2 ^ 8 * 2 ^ 32 by norm_num, ← Nat.mul_assoc]
    exact Nat.mul_div_cancel _ (by norm_num)
  have hcomp : compose success ptr len =
      ((if success then (0 : Nat) else 1) ||| ptr * 2 ^ 32 ||| (len % 2 ^ 24) * 2 ^ 8) := by
    simp only [compose]
    rw [hptrF, hlenF]
  obtain ⟨w1, w2, w3⟩ :=
    word_fields (if success then (0 : Nat) else 1) ptr len hb hp
  rw [hcomp]
  simp only [decompose]
  refine Prod.ext ?_ (Prod.ext ?_ ?_) <;> simp only []
  · rw [shift63_mod, w1]
    cases success <;> simp
  · exact w2
  · exact w3

/-- C9: for every success flag, 32-bit pointer and length strictly below
`2 ^ 24`, `decompose (compose success ptr len) = (success, ptr, len)`; at the
boundary `len = 2 ^ 24` (still accepted by the `assert!`), the length field
wraps to 0 - `compose` shifts the 25-bit value out of the 24-bit field - so
the roundtrip returns length 0 there. -/
theorem c9_compose_roundtrip (success : Bool) (ptr len : Nat)
    (hp : ptr < 2 ^ 32) (hl : len < 2 ^ 24) :
    decompose (compose success ptr len) = (success, ptr, len) ∧
    (∀ (s : Bool) (p : Nat), p < 2 ^ 32 →
      decompose (compose s p MAX_ALLOC_LEN) = (s, p, 0)) := by
  constructor
  · rw [decompose_compose success ptr len hp, Nat.mod_eq_of_lt hl]
  · intro s p hp2
    rw [decompose_compose s p MAX_ALLOC_LEN hp2]
    simp [MAX_ALLOC_LEN]

/-- Witness for C9 at the values of the crate's `compose_works` test. -/
theorem c9_compose_roundtrip_witness :
    decompose (compose false 4837 383) = (false, 4837, 383) :=
  (c9_compose_roundtrip false 4837 383 (by norm_num) (by norm_num)).1

/-! ### C1 and C2: input selection -/

/-- Positional bound: appending a digit below `n` stays below the next
power. -/
theorem mulAdd_lt {x y m n : Nat} (hx : x < m) (hy : y < n) :
    x * n + y < m * n := by
  calc x * n + y < x * n + n := by omega
    _ = (x + 1) * n := by ring
    _ ≤ m * n := Nat.mul_le_mul_right n hx

/-- The rank of a combination is below `n ^ 4`. -/
theorem enc_lt_pow4 {n : Nat} {c : Idx4} (hc : isCombo n c) :
    enc n c < n ^ 4 := by
  obtain ⟨a, b, cc, d⟩ := c
  dsimp only [isCombo] at hc
  obtain ⟨h1, h2, h3, h4⟩ := hc
  have ha : a < n := by omega
  have hb : b < n := by omega
  have hcc : cc < n := by omega
  have e1 : a * n + b < n * n := mulAdd_lt ha hb
  have e2 : (a * n + b) * n + cc < n * n * n := mulAdd_lt e1 hcc
  have e3 : ((a * n + b) * n + cc) * n + d < n * n * n * n := mulAdd_lt e2 h4
  calc enc n ⟨a, b, cc, d⟩ = ((a * n + b) * n + cc) * n + d := rfl
    _ < n * n * n * n := e3
    _ = n ^ 4 := by ring

/-- Appending digits preserves strict rank order. -/
theorem encStep_lt {x x' y y' n : Nat} (hy : y < n) (h : x < x') :
    x * n + y < x' * n + y' := by
  calc x * n + y < x * n + n := by omega
    _ = (x + 1) * n := by ring
    _ ≤ x' * n := Nat.mul_le_mul_right n h
    _ ≤ x' * n + y' := Nat.le_add_right _ _

/-- The rank is strictly monotone along the lexicographic order. -/
theorem enc_lt_of_lexLt {n : Nat} {c c' : Idx4} (hc : isCombo n c)
    (hc' : isCombo n c') (h : lexLt c c') : enc n c < enc n c' := by
  obtain ⟨a, b, cc, d⟩ := c
  obtain ⟨x, y, z, w⟩ := c'
  dsimp only [isCombo, lexLt, enc] at hc hc' h ⊢
  obtain ⟨h1, h2, h3, h4⟩ := hc
  obtain ⟨g1, g2, g3, g4⟩ := hc'
  have hb : b < n := by omega
  have hcc : cc < n := by omega
  rcases h with h | ⟨rfl, h | ⟨rfl, h | ⟨rfl, h⟩⟩⟩
  · exact encStep_lt h4 (encStep_lt hcc (encStep_lt hb h))
  · exact encStep_lt h4 (encStep_lt hcc (Nat.add_lt_add_left h _))
  · exact encStep_lt h4 (Nat.add_lt_add_left h _)
  · exact Nat.add_lt_add_left h _

/-- Lexicographic trichotomy. -/
theorem lexLt_trichotomy (c c' : Idx4) : lexLt c c' ∨ c = c' ∨ lexLt c' c := by
  obtain ⟨a, b, cc, d⟩ := c
  obtain ⟨x, y, z, w⟩ := c'
  dsimp only [lexLt]
  rw [Idx4.mk.injEq]
  omega

/-- No combination lies beyond the last one. -/
theorem combo_le_last {n : Nat} {c : Idx4} (hc : isCombo n c) :
    ¬ lexLt (lastCombo n) c := by
  obtain ⟨a, b, cc, d⟩ := c
  dsimp only [isCombo] at hc
  obtain ⟨h1, h2, h3, h4⟩ := hc
  dsimp only [lexLt, lastCombo]
  omega

/-- Stepping the last combination pushes its final index to `n`, which is
the loop's exit condition. -/
theorem nextIdx_last {n : Nat} (hn : 4 ≤ n) : (nextIdx n (lastCombo n)).d = n := by
  have h1 : scanIdx n (lastCombo n) = 0 := by
    rw [scanIdx, lastCombo]
    dsimp only
    rw [if_pos (by omega), if_pos (by omega), if_pos (by omega)]
  rw [nextIdx, h1, lastCombo]
  dsimp only [bumpIdx]
  omega

/-- The advancement step of the loop computes the lexicographic successor:
from a non-final combination it yields a combination that is strictly
greater and minimal among the strictly greater ones. -/
theorem nextIdx_spec {n : Nat} (hn : 4 ≤ n) {c : Idx4} (hc : isCombo n c)
    (hne : c ≠ lastCombo n) :
    isCombo n (nextIdx n c) ∧ lexLt c (nextIdx n c) ∧
    ∀ c', isCombo n c' → lexLt c c' → ¬ lexLt c' (nextIdx n c) := by
  obtain ⟨a, b, cc, d⟩ := c
  dsimp only [isCombo] at hc
  obtain ⟨h1, h2, h3, h4⟩ := hc
  rw [nextIdx, scanIdx]
  dsimp only
  by_cases hd4 : d = 3 + n - 4
  · by_cases hc4 : cc = 2 + n - 4
    · by_cases hb4 : b = 1 + n - 4
      · rw [if_pos hd4, if_pos hc4, if_pos hb4]
        have ha4 : a ≠ n - 4 := by
          intro hEq
          exact hne (by rw [lastCombo, Idx4.mk.injEq]; omega)
        refine ⟨by dsimp only [bumpIdx, isCombo]; omega, ?_, ?_⟩
        · dsimp only [bumpIdx, lexLt]; omega
        · intro ⟨x, y, z, w⟩ hcx hlt
          dsimp only [isCombo] at hcx
          obtain ⟨g1, g2, g3, g4⟩ := hcx
          dsimp only [bumpIdx, lexLt] at hlt ⊢
          omega
      · rw [if_pos hd4, if_pos hc4, if_neg hb4]
        refine ⟨by dsimp only [bumpIdx, isCombo]; omega, ?_, ?_⟩
        · dsimp only [bumpIdx, lexLt]; omega
        · intro ⟨x, y, z, w⟩ hcx hlt
          dsimp only [isCombo] at hcx
          obtain ⟨g1, g2, g3, g4⟩ := hcx
          dsimp only [bumpIdx, lexLt] at hlt ⊢
          omega
    · rw [if_pos hd4, if_neg hc4]
      refine ⟨by dsimp only [bumpIdx, isCombo]; omega, ?_, ?_⟩
      · dsimp only [bumpIdx, lexLt]; omega
      · intro ⟨x, y, z, w⟩ hcx hlt
        dsimp only [isCombo] at hcx
        obtain ⟨g1, g2, g3, g4⟩ := hcx
        dsimp only [bumpIdx, lexLt] at hlt ⊢
        omega
  · rw [if_neg hd4]
    refine ⟨by dsimp only [bumpIdx, isCombo]; omega, ?_, ?_⟩
    · dsimp only [bumpIdx, lexLt]; omega
    · intro ⟨x, y, z, w⟩ hcx hlt
      dsimp only [isCombo] at hcx
      obtain ⟨g1, g2, g3, g4⟩ := hcx
      dsimp only [bumpIdx, lexLt] at hlt ⊢
      omega


/-- Soundness invariant of the search loop: starting from a combination all
of whose lexicographic predecessors are invalid, with enough fuel, the loop
returns the lexicographically first valid combination, or `none` exactly
when no combination is valid. -/
theorem pickLexAux_sound (n : Nat) (hn : 4 ≤ n) (valid : Idx4 → Bool) :
    ∀ (fuel : Nat) (c : Idx4), isCombo n c → n ^ 4 ≤ fuel + enc n c →
      (∀ c', isCombo n c' → lexLt c' c → valid c' = false) →
      ((∀ r, pickLexAux n valid fuel c = some r →
          isCombo n r ∧ valid r = true ∧
          ∀ c', isCombo n c' → lexLt c' r → valid c' = false) ∧
       (pickLexAux n valid fuel c = none →
          ∀ c', isCombo n c' → valid c' = false)) := by
  intro fuel
  induction fuel with
  | zero =>
    intro c hc hfuel _
    exact absurd hfuel (by have := enc_lt_pow4 hc; omega)
  | succ fuel ih =>
    intro c hc hfuel hinv
    rw [pickLexAux]
    by_cases hv : valid c
    · rw [if_pos hv]
      refine ⟨?_, ?_⟩
      · intro r hr
        cases hr
        exact ⟨hc, hv, hinv⟩
      · intro h; cases h
    · rw [if_neg hv]
      by_cases hlast : c = lastCombo n
      · subst hlast
        rw [if_pos (nextIdx_last hn)]
        refine ⟨?_, ?_⟩
        · intro r hr; cases hr
        · intro _ c' hc'
          rcases lexLt_trichotomy c' (lastCombo n) with h | h | h
          · exact hinv c' hc' h
          · rw [h]; exact eq_false_of_ne_true hv
          · exact absurd h (combo_le_last hc')
      · obtain ⟨hcN, hltN, hsucc⟩ := nextIdx_spec hn hc hlast
        rw [if_neg (by have := hcN.2.2.2; omega)]
        apply ih (nextIdx n c) hcN
        · have := enc_lt_of_lexLt hc hcN hltN; omega
        · intro c' hc' hlt'
          rcases lexLt_trichotomy c' c with h | h | h
          · exact hinv c' hc' h
          · rw [h]; exact eq_false_of_ne_true hv
          · exact absurd hlt' (hsucc c' hc' h)

/-- Characterization of `pick_lexicographic`: it returns the
lexicographically first valid combination of 4 indices below `n`, or `none`
exactly when no combination is valid. -/
theorem pick_lexicographic_spec (n : Nat) (hn : 4 ≤ n) (valid : Idx4 → Bool) :
    (∀ r, pick_lexicographic n valid = some r →
      isCombo n r ∧ valid r = true ∧
      ∀ c', isCombo n c' → lexLt c' r → valid c' = false) ∧
    (pick_lexicographic n valid = none → ∀ c', isCombo n c' → valid c' = false) := by
  have h0 : isCombo n ⟨0, 1, 2, 3⟩ := by dsimp only [isCombo]; omega
  have hmin : ∀ c', isCombo n c' → lexLt c' ⟨0, 1, 2, 3⟩ → valid c' = false := by
    intro ⟨x, y, z, w⟩ hc hlt
    dsimp only [isCombo] at hc
    dsimp only [lexLt] at hlt
    exact absurd hlt (by omega)
  exact pickLexAux_sound n hn valid (n ^ 4) ⟨0, 1, 2, 3⟩ h0 (Nat.le_add_right _ _) hmin


/-- Building a sublist downward from position `j`. -/
theorem getD_cons_sublist_drop (l : List Node) (i j : Nat) (hij : i ≤ j)
    (hj : j < l.length) {t : List Node} (ht : t.Sublist (l.drop (j + 1))) :
    (l.getD j default :: t).Sublist (l.drop i) := by
  have hgd : l.getD j default = l[j] := by
    simp [List.getD_eq_getElem?_getD, List.getElem?_eq_getElem hj]
  have h1 : (l[j] :: t).Sublist (l[j] :: l.drop (j + 1)) := List.Sublist.cons₂ _ ht
  have h2 : l[j] :: l.drop (j + 1) = l.drop j := (List.drop_eq_getElem_cons hj).symm
  have h3 : (l.drop j).Sublist (l.drop i) := List.drop_sublist_drop_left l hij
  rw [hgd]
  exact (h2 ▸ h1).trans h3

/-- The notes selected by a combination form a sublist of the pool. -/
theorem comboGet_sublist {s : List Node} {c : Idx4} (hc : isCombo s.length c) :
    (comboGet s c).Sublist s := by
  obtain ⟨a, b, cc, d⟩ := c
  dsimp only [isCombo] at hc
  obtain ⟨h1, h2, h3, h4⟩ := hc
  have t1 : (s.getD d default :: ([] : List Node)).Sublist (s.drop (cc + 1)) :=
    getD_cons_sublist_drop s (cc + 1) d h3 h4 (List.nil_sublist _)
  have t2 : (s.getD cc default :: [s.getD d default]).Sublist (s.drop (b + 1)) :=
    getD_cons_sublist_drop s (b + 1) cc h2 (by omega) t1
  have t3 : (s.getD b default :: [s.getD cc default, s.getD d default]).Sublist
      (s.drop (a + 1)) :=
    getD_cons_sublist_drop s (a + 1) b h1 (by omega) t2
  have t4 : (s.getD a default ::
      [s.getD b default, s.getD cc default, s.getD d default]).Sublist (s.drop 0) :=
    getD_cons_sublist_drop s 0 a (Nat.zero_le _) (by omega) t3
  rw [List.drop_zero] at t4
  exact t4

/-- Values of a selected combination are the values of its notes. -/
theorem comboVals_eq_map (s : List Node) (c : Idx4) :
    comboVals s c = (comboGet s c).map Node.value := by
  simp [comboVals, comboGet, comboIdx]

/-- A combination never selects more value than the pool holds. -/
theorem comboSum_le_totalVal {s : List Node} {c : Idx4}
    (hc : isCombo s.length c) : comboSum s c ≤ totalVal s := by
  rw [comboSum, comboVals_eq_map, totalVal]
  exact List.Sublist.sum_le_sum ((comboGet_sublist hc).map Node.value)
    fun a _ => Nat.zero_le a

/-- Every sublist is the image of a strictly increasing list of in-range
positions. -/
theorem sublist_exists_indices {t l : List Node} (h : t.Sublist l) :
    ∃ is : List Nat, is.length = t.length ∧ is.Pairwise (· < ·) ∧
      (∀ i ∈ is, i < l.length) ∧ t = is.map fun i => l.getD i default := by
  induction h with
  | slnil => exact ⟨[], rfl, List.Pairwise.nil, by simp, rfl⟩
  | @cons l₁ l₂ a hsub ih =>
    obtain ⟨is, hlen, hpw, hrange, heq⟩ := ih
    refine ⟨is.map (· + 1), by simp [hlen], ?_, ?_, ?_⟩
    · exact (List.pairwise_map).mpr (hpw.imp fun hab => by omega)
    · intro i hi
      obtain ⟨j, hj, rfl⟩ := List.mem_map.mp hi
      have := hrange j hj
      simp only [List.length_cons]
      omega
    · rw [heq, List.map_map]
      congr 1
  | @cons₂ l₁ l₂ a hsub ih =>
    obtain ⟨is, hlen, hpw, hrange, heq⟩ := ih
    refine ⟨0 :: is.map (· + 1), by simp [hlen], ?_, ?_, ?_⟩
    · refine List.pairwise_cons.mpr ⟨?_, (List.pairwise_map).mpr (hpw.imp fun hab => by omega)⟩
      intro i hi
      obtain ⟨j, hj, rfl⟩ := List.mem_map.mp hi
      omega
    · intro i hi
      rcases List.mem_cons.mp hi with rfl | hi
      · simp
      · obtain ⟨j, hj, rfl⟩ := List.mem_map.mp hi
        have := hrange j hj
        simp only [List.length_cons]
        omega
    · simp only [List.map_cons, List.getD_cons_zero, List.map_map]
      rw [heq]
      congr 1

/-- A 4-element sublist of the pool is a combination. -/
theorem sublist4_combo {t s : List Node} (h : t.Sublist s) (hlen : t.length = 4) :
    ∃ c, isCombo s.length c ∧ t = comboGet s c := by
  obtain ⟨is, hl, hpw, hrange, heq⟩ := sublist_exists_indices h
  rw [hlen] at hl
  match is, hl with
  | [i1, i2, i3, i4], _ =>
    refine ⟨⟨i1, i2, i3, i4⟩, ?_, ?_⟩
    · have p12 : i1 < i2 := List.rel_of_pairwise_cons hpw (by simp)
      have p23 : i2 < i3 := List.rel_of_pairwise_cons (List.pairwise_cons.mp hpw).2 (by simp)
      have p34 : i3 < i4 :=
        List.rel_of_pairwise_cons
          (List.pairwise_cons.mp (List.pairwise_cons.mp hpw).2).2 (by simp)
      have r4 : i4 < s.length := hrange i4 (by simp)
      exact ⟨p12, p23, p34, r4⟩
    · rw [heq]
      simp [comboGet, comboIdx]

/-- Padding lemma: any sublist of length at most `k` extends to one of
length exactly `k`. -/
theorem sublist_extend {s l : List Node} (h : s.Sublist l) :
    ∀ k, s.length ≤ k → k ≤ l.length →
      ∃ t : List Node, s.Sublist t ∧ t.Sublist l ∧ t.length = k := by
  induction h with
  | slnil =>
    intro k hk hk'
    simp only [List.length_nil, Nat.le_zero] at hk'
    subst hk'
    exact ⟨[], List.Sublist.refl _, List.Sublist.refl _, rfl⟩
  | @cons l₁ l₂ a hsub ih =>
    intro k hk hk'
    simp only [List.length_cons] at hk'
    by_cases hkl : k ≤ l₂.length
    · obtain ⟨t, h1, h2, h3⟩ := ih k hk hkl
      exact ⟨t, h1, h2.trans (List.sublist_cons_self a l₂), h3⟩
    · have hkeq : k = l₂.length + 1 := by omega
      obtain ⟨t, h1, h2, h3⟩ := ih l₂.length hsub.length_le (le_refl _)
      exact ⟨a :: t, h1.trans (List.sublist_cons_self a t),
        List.Sublist.cons₂ a h2, by simp [h3, hkeq]⟩
  | @cons₂ l₁ l₂ a hsub ih =>
    intro k hk hk'
    simp only [List.length_cons] at hk hk'
    have hk1 : 1 ≤ k := by omega
    obtain ⟨t, h1, h2, h3⟩ := ih (k - 1) (by omega) (by omega)
    exact ⟨a :: t, List.Sublist.cons₂ a h1, List.Sublist.cons₂ a h2,
      by simp [h3]; omega⟩


/-- A nonempty covering selection of at most 4 notes exists exactly when
some 4-index combination of the sorted pool covers the target (pools of
more than 4 notes). -/
theorem cover_iff_combo (target : Nat) (pool : List Node) (hlen : 4 < pool.length) :
    coverExists target pool ↔
      ∃ c, isCombo pool.length c ∧ target ≤ comboSum (sortByValue pool) c := by
  have hperm : (sortByValue pool).Perm pool :=
    List.mergeSort_perm pool fun x y => decide (x.value ≤ y.value)
  have hslen : (sortByValue pool).length = pool.length := hperm.length_eq
  constructor
  · rintro ⟨s, hmem, hne, hlen4, hsum⟩
    have hsub : s.Sublist pool := List.mem_sublists.mp hmem
    have hsp : s.Subperm (sortByValue pool) := hsub.subperm.trans hperm.symm.subperm
    obtain ⟨s', hs'perm, hs'sub⟩ := hsp
    have hs'len : s'.length ≤ 4 := by
      rw [hs'perm.length_eq]
      simpa [MAX_INPUT_NOTES] using hlen4
    obtain ⟨t, ht1, ht2, ht3⟩ := sublist_extend hs'sub 4 hs'len (by omega)
    obtain ⟨c, hc, rfl⟩ := sublist4_combo ht2 ht3
    refine ⟨c, by rwa [hslen] at hc, ?_⟩
    calc target ≤ totalVal s := hsum
      _ = totalVal s' := ((hs'perm.map Node.value).sum_eq).symm
      _ ≤ totalVal (comboGet (sortByValue pool) c) :=
          List.Sublist.sum_le_sum (ht1.map Node.value) fun a _ => Nat.zero_le a
      _ = comboSum (sortByValue pool) c := by rw [comboSum, comboVals_eq_map, totalVal]
  · rintro ⟨c, hc, hsum⟩
    have hc' : isCombo (sortByValue pool).length c := by rwa [hslen]
    have hsub : (comboGet (sortByValue pool) c).Sublist (sortByValue pool) :=
      comboGet_sublist hc'
    have hsp : (comboGet (sortByValue pool) c).Subperm pool :=
      hsub.subperm.trans hperm.subperm
    obtain ⟨s, hsperm, hssub⟩ := hsp
    have hslen4 : s.length = 4 := by
      rw [hsperm.length_eq]
      simp [comboGet, comboIdx]
    refine ⟨s, List.mem_sublists.mpr hssub, ?_, ?_, ?_⟩
    · intro h
      rw [h] at hslen4
      simp at hslen4
    · simp [MAX_INPUT_NOTES, hslen4]
    · calc target ≤ comboSum (sortByValue pool) c := hsum
        _ = totalVal (comboGet (sortByValue pool) c) := by
            rw [comboSum, comboVals_eq_map, totalVal]
        _ = totalVal s := ((hsperm.map Node.value).sum_eq).symm


/-- The characterization of `pick_notes` on pools of more than 4 notes with
no `u64` overflow: it sorts the pool ascending by value and returns the
notes of the lexicographically first 4-index combination whose value sum
reaches the target, or the empty list when no combination does. -/
theorem pick_notes_spec (target : Nat) (pool : List Node)
    (hlen : 4 < pool.length) (htot : totalVal pool ≤ U64MAX) :
    (pick_notes target pool = [] ∧
      ∀ c, isCombo pool.length c → comboSum (sortByValue pool) c < target) ∨
    (∃ c, isCombo pool.length c ∧ target ≤ comboSum (sortByValue pool) c ∧
      (∀ c', isCombo pool.length c' → lexLt c' c →
        comboSum (sortByValue pool) c' < target) ∧
      pick_notes target pool = comboGet (sortByValue pool) c) := by
  have hperm : (sortByValue pool).Perm pool :=
    List.mergeSort_perm pool fun x y => decide (x.value ≤ y.value)
  have hslen : (sortByValue pool).length = pool.length := hperm.length_eq
  have hstot : totalVal (sortByValue pool) = totalVal pool :=
    (hperm.map Node.value).sum_eq
  have hbridge : ∀ c, isCombo pool.length c →
      (decide (target ≤ wsum (comboVals (sortByValue pool) c)) = true ↔
        target ≤ comboSum (sortByValue pool) c) := by
    intro c hc
    have hc' : isCombo (sortByValue pool).length c := by rwa [hslen]
    have hle : comboSum (sortByValue pool) c ≤ U64MAX :=
      le_trans (comboSum_le_totalVal hc') (by rw [hstot]; exact htot)
    have hw : wsum (comboVals (sortByValue pool) c) = comboSum (sortByValue pool) c := by
      rw [wsum]
      exact Nat.mod_eq_of_lt (lt_of_le_of_lt hle (by norm_num [U64MAX, U64LIM]))
    rw [hw, decide_eq_true_iff]
  have hpick : pick_notes target pool =
      (Option.map (fun c => comboGet (sortByValue pool) c)
        (pick_lexicographic (sortByValue pool).length
          fun c => decide (target ≤ wsum (comboVals (sortByValue pool) c)))).getD [] := by
    rw [pick_notes, if_neg (by simp only [MAX_INPUT_NOTES]; omega)]
  rcases hopt : pick_lexicographic (sortByValue pool).length
      (fun c => decide (target ≤ wsum (comboVals (sortByValue pool) c))) with _ | c
  · left
    constructor
    · rw [hpick, hopt]; rfl
    · intro c hc
      have hfalse := (pick_lexicographic_spec _ (by omega) _).2 hopt c (by rwa [hslen])
      rw [← Nat.not_le]
      intro hle
      exact absurd ((hbridge c hc).mpr hle) (by simp [hfalse])
  · right
    obtain ⟨hcombo, hvalid, hleast⟩ := (pick_lexicographic_spec _ (by omega) _).1 c hopt
    have hcP : isCombo pool.length c := by rwa [hslen] at hcombo
    refine ⟨c, hcP, (hbridge c hcP).mp hvalid, ?_, by rw [hpick, hopt]; rfl⟩
    intro c' hc' hlt
    have hfalse := hleast c' (by rwa [hslen]) hlt
    rw [← Nat.not_le]
    intro hle
    exact absurd ((hbridge c' hc').mpr hle) (by simp [hfalse])



/-- Saturating accumulation never drops below the (clamped) start. -/
theorem foldl_satAdd_ge_min :
    ∀ (vs : List Nat) (sum : Nat), min sum U64MAX ≤ List.foldl satAdd sum vs := by
  intro vs
  induction vs with
  | nil => intro sum; simp
  | cons v rest ih =>
    intro sum
    calc min sum U64MAX ≤ min (satAdd sum v) U64MAX := by
          simp only [satAdd]; omega
      _ ≤ List.foldl satAdd (satAdd sum v) rest := ih (satAdd sum v)
      _ = List.foldl satAdd sum (v :: rest) := rfl

/-- The early-exit accumulation loop of `inputs` crosses the target exactly
when the full saturating fold does. -/
theorem inputsSumLoop_lt_iff (target : Nat) :
    ∀ (vs : List Nat) (sum : Nat), sum ≤ U64MAX →
      (inputsSumLoop target sum vs < target ↔ List.foldl satAdd sum vs < target) := by
  intro vs
  induction vs with
  | nil => intro sum _; rw [inputsSumLoop]; rfl
  | cons v rest ih =>
    intro sum hsum
    rw [inputsSumLoop]
    by_cases h : sum < target
    · rw [if_pos h]
      exact ih (satAdd sum v) (by simp only [satAdd]; omega)
    · rw [if_neg h]
      have hge : min sum U64MAX ≤ List.foldl satAdd sum (v :: rest) :=
        foldl_satAdd_ge_min (v :: rest) sum
    -- sum ≥ target, so the full fold also stays at or above the target
      rw [min_eq_left hsum] at hge
      constructor
      · intro hlt; omega
      · intro hlt; omega

/-- Without overflow the saturating fold is the plain sum. -/
theorem foldl_satAdd_eq_sum :
    ∀ (vs : List Nat) (sum : Nat), sum + vs.sum ≤ U64MAX →
      List.foldl satAdd sum vs = sum + vs.sum := by
  intro vs
  induction vs with
  | nil => intro sum _; simp
  | cons v rest ih =>
    intro sum h
    simp only [List.sum_cons] at h
    have h1 : satAdd sum v = sum + v := by
      simp only [satAdd]; omega
    calc List.foldl satAdd sum (v :: rest) = List.foldl satAdd (satAdd sum v) rest := rfl
      _ = satAdd sum v + rest.sum := ih _ (by omega)
      _ = sum + (v :: rest).sum := by rw [h1]; simp; omega

/-- Without overflow the wrapping fold is the plain sum. -/
theorem foldl_wrapAdd_eq_sum :
    ∀ (vs : List Nat) (sum : Nat), sum + vs.sum ≤ U64MAX →
      List.foldl (fun a v => (a + v) % U64LIM) sum vs = sum + vs.sum := by
  intro vs
  induction vs with
  | nil => intro sum _; simp
  | cons v rest ih =>
    intro sum h
    simp only [List.sum_cons] at h
    have h1 : (sum + v) % U64LIM = sum + v := by
      apply Nat.mod_eq_of_lt
      simp only [U64MAX, U64LIM] at *
      omega
    calc List.foldl (fun a v => (a + v) % U64LIM) sum (v :: rest)
        = List.foldl (fun a v => (a + v) % U64LIM) ((sum + v) % U64LIM) rest := rfl
      _ = (sum + v) % U64LIM + rest.sum := ih _ (by rw [h1]; omega)
      _ = sum + (v :: rest).sum := by rw [h1]; simp; omega

/-- A covering selection is bounded by the pool total. -/
theorem cover_total_le {target : Nat} {pool : List Node}
    (h : coverExists target pool) : target ≤ totalVal pool := by
  obtain ⟨s, hmem, _, _, hsum⟩ := h
  calc target ≤ totalVal s := hsum
    _ ≤ totalVal pool :=
      List.Sublist.sum_le_sum ((List.mem_sublists.mp hmem).map Node.value)
        fun a _ => Nat.zero_le a



/-- Outcome of `pick_notes` on a pool that can pay the target: the empty
result signals exactly that no nonempty selection of at most 4 notes covers
the target, and a nonempty result is such a selection. -/
theorem pick_notes_main (target : Nat) (pool : List Node)
    (htot : totalVal pool ≤ U64MAX) (hcov : target ≤ totalVal pool) :
    (pick_notes target pool = [] ↔ ¬ coverExists target pool) ∧
    (pick_notes target pool ≠ [] →
      (pick_notes target pool).length ≤ MAX_INPUT_NOTES ∧
      target ≤ totalVal (pick_notes target pool) ∧
      (pick_notes target pool).Subperm pool) := by
  by_cases hlen : pool.length ≤ MAX_INPUT_NOTES
  · have hpick : pick_notes target pool = pool := by
      rw [pick_notes, if_pos hlen]
    rw [hpick]
    constructor
    · constructor
      · intro hempty
        rintro ⟨s, hmem, hne, _, hsum⟩
        rw [hempty] at hmem
        simp only [List.sublists_nil, List.mem_singleton] at hmem
        exact hne hmem
      · intro hncov
        by_contra hne
        exact hncov ⟨pool, List.mem_sublists.mpr (List.Sublist.refl pool), hne, hlen, hcov⟩
    · intro _
      exact ⟨hlen, hcov, (List.Sublist.refl pool).subperm⟩
  · have hlen4 : 4 < pool.length := by simpa [MAX_INPUT_NOTES] using hlen
    rcases pick_notes_spec target pool hlen4 htot with ⟨hempty, hnone⟩ | ⟨c, hc, hsum, _, hres⟩
    · rw [hempty]
      constructor
      · simp only [true_iff]
        intro hcover
        obtain ⟨c, hc, hsum⟩ := (cover_iff_combo target pool hlen4).mp hcover
        exact absurd hsum (by have := hnone c hc; omega)
      · intro h; exact absurd rfl h
    · have hlen4' : (comboGet (sortByValue pool) c).length = 4 := by
        simp [comboGet, comboIdx]
      have hcover : coverExists target pool :=
        (cover_iff_combo target pool hlen4).mpr ⟨c, hc, hsum⟩
      have hperm : (sortByValue pool).Perm pool :=
        List.mergeSort_perm pool fun x y => decide (x.value ≤ y.value)
      rw [hres]
      constructor
      · constructor
        · intro hempty
          rw [hempty] at hlen4'
          simp at hlen4'
        · intro hncov
          exact absurd hcover hncov
      · intro _
        refine ⟨by rw [hlen4']; simp [MAX_INPUT_NOTES], ?_, ?_⟩
        · calc target ≤ comboSum (sortByValue pool) c := hsum
            _ = totalVal (comboGet (sortByValue pool) c) := by
                rw [comboSum, comboVals_eq_map, totalVal]
        · have hslen : (sortByValue pool).length = pool.length := hperm.length_eq
          exact ((comboGet_sublist (by rwa [hslen])).subperm).trans hperm.subperm



/-- C1 (amended): with a pool total that fits in `u64`: `utils::inputs`
returns `None` exactly when the pool is empty or its total value is below
the target; otherwise it returns `Some` of the `pick_notes` selection, which
is empty exactly when no nonempty selection of at most 4 notes covers the
target, and otherwise is a nonempty sub-multiset of at most 4 pool notes
whose value sum reaches the target. At the wallet level,
`inputs_and_change_output` turns both cases into failures: it fails exactly
when the total is below the target or no covering selection exists
(`NotEnoughBalance` precisely in the former case), and on success returns
such a nonempty selection. -/
theorem c1_input_selection (pool : List Node) (target : Nat)
    (htot : totalVal pool ≤ U64MAX) :
    (inputs pool target = none ↔ pool = [] ∨ totalVal pool < target) ∧
    (∀ xs, inputs pool target = some xs →
      ((xs = [] ↔ ¬ coverExists target pool) ∧
       (xs ≠ [] → xs.length ≤ MAX_INPUT_NOTES ∧ target ≤ totalVal xs ∧
         xs.Subperm pool))) ∧
    ((∃ e, inputs_and_change_sel target pool = .error e) ↔
      totalVal pool < target ∨ ¬ coverExists target pool) ∧
    (inputs_and_change_sel target pool = .error .notEnoughBalance ↔
      totalVal pool < target) ∧
    (∀ xs, inputs_and_change_sel target pool = .ok xs →
      xs ≠ [] ∧ xs.length ≤ MAX_INPUT_NOTES ∧ target ≤ totalVal xs ∧
        xs.Subperm pool) := by
  have hacc : (pool.map Node.value).foldl (fun a v => (a + v) % U64LIM) 0
      = totalVal pool := by
    have h := foldl_wrapAdd_eq_sum (pool.map Node.value) 0
      (by simpa [totalVal] using htot)
    simpa [totalVal] using h
  have hsat : List.foldl satAdd 0 (pool.map Node.value) = totalVal pool := by
    have h := foldl_satAdd_eq_sum (pool.map Node.value) 0
      (by simpa [totalVal] using htot)
    simpa [totalVal] using h
  have hloop : inputsSumLoop target 0 (pool.map Node.value) < target ↔
      totalVal pool < target := by
    rw [inputsSumLoop_lt_iff target _ 0 (Nat.zero_le _), hsat]
  have hics : inputs_and_change_sel target pool =
      (if totalVal pool < target then .error .notEnoughBalance
       else if (pick_notes target pool).isEmpty then .error .noteCombinationProblem
       else .ok (pick_notes target pool)) := by
    simp only [inputs_and_change_sel, hacc]
  by_cases hemp : pool = []
  · subst hemp
    have hncov : ¬ coverExists target ([] : List Node) := by
      rintro ⟨s, hmem, hne, _, _⟩
      simp only [List.sublists_nil, List.mem_singleton] at hmem
      exact hne hmem
    have hpe : pick_notes target ([] : List Node) = [] := by
      rw [pick_notes, if_pos (by simp [MAX_INPUT_NOTES])]
    refine ⟨?_, ?_, ?_, ?_, ?_⟩
    · simp [inputs]
    · intro xs hxs
      rw [show inputs [] target = none from rfl] at hxs
      cases hxs
    · rw [hics]
      by_cases ht : totalVal ([] : List Node) < target
      · rw [if_pos ht]
        exact ⟨fun _ => Or.inl ht, fun _ => ⟨_, rfl⟩⟩
      · rw [if_neg ht, hpe,
          if_pos (show ([] : List Node).isEmpty = true from rfl)]
        exact ⟨fun _ => Or.inr hncov, fun _ => ⟨_, rfl⟩⟩
    · rw [hics]
      by_cases ht : totalVal ([] : List Node) < target
      · rw [if_pos ht]
        exact ⟨fun _ => ht, fun _ => rfl⟩
      · rw [if_neg ht, hpe,
          if_pos (show ([] : List Node).isEmpty = true from rfl)]
        exact ⟨fun h => absurd h (by simp), fun h => absurd h ht⟩
    · intro xs hxs
      rw [hics] at hxs
      by_cases ht : totalVal ([] : List Node) < target
      · rw [if_pos ht] at hxs; cases hxs
      · rw [if_neg ht, hpe,
          if_pos (show ([] : List Node).isEmpty = true from rfl)] at hxs
        cases hxs
  · have hempf : pool.isEmpty = false := by
      cases pool with
      | nil => exact absurd rfl hemp
      | cons a l => rfl
    have hinputs : inputs pool target =
        if inputsSumLoop target 0 (pool.map Node.value) < target then none
        else some (pick_notes target pool) := by
      simp only [inputs, hempf, Bool.false_eq_true, if_false]
    by_cases ht : totalVal pool < target
    · have hloopt : inputsSumLoop target 0 (pool.map Node.value) < target :=
        hloop.mpr ht
      have hncov : ¬ coverExists target pool := fun hcov =>
        absurd (cover_total_le hcov) (by omega)
      refine ⟨?_, ?_, ?_, ?_, ?_⟩
      · rw [hinputs, if_pos hloopt]
        simp [ht]
      · intro xs hxs
        rw [hinputs, if_pos hloopt] at hxs
        cases hxs
      · rw [hics, if_pos ht]
        exact ⟨fun _ => Or.inl ht, fun _ => ⟨_, rfl⟩⟩
      · rw [hics, if_pos ht]
        exact ⟨fun _ => ht, fun _ => rfl⟩
      · intro xs hxs
        rw [hics, if_pos ht] at hxs
        cases hxs
    · have hcovge : target ≤ totalVal pool := by omega
      obtain ⟨hiff, hfacts⟩ := pick_notes_main target pool htot hcovge
      have hloopf : ¬ inputsSumLoop target 0 (pool.map Node.value) < target :=
        fun h => ht (hloop.mp h)
      refine ⟨?_, ?_, ?_, ?_, ?_⟩
      · rw [hinputs, if_neg hloopf]
        simp [hemp, ht]
      · intro xs hxs
        rw [hinputs, if_neg hloopf] at hxs
        cases hxs
        exact ⟨hiff, hfacts⟩
      · rw [hics, if_neg ht]
        by_cases hpe : pick_notes target pool = []
        · rw [if_pos (by simp [hpe])]
          exact ⟨fun _ => Or.inr (hiff.mp hpe), fun _ => ⟨_, rfl⟩⟩
        · rw [if_neg (by simp [hpe])]
          have hcov : coverExists target pool := by
            by_contra hn
            exact hpe (hiff.mpr hn)
          constructor
          · rintro ⟨e, he⟩
            cases he
          · rintro (h | h)
            · exact absurd h ht
            · exact absurd hcov h
      · rw [hics, if_neg ht]
        by_cases hpe : pick_notes target pool = []
        · rw [if_pos (by simp [hpe])]
          exact ⟨fun h => absurd h (by simp), fun h => absurd h ht⟩
        · rw [if_neg (by simp [hpe])]
          exact ⟨fun h => Except.noConfusion h, fun h => absurd h ht⟩
      · intro xs hxs
        rw [hics, if_neg ht] at hxs
        by_cases hpe : pick_notes target pool = []
        · rw [if_pos (by simp [hpe])] at hxs
          cases hxs
        · rw [if_neg (by simp [hpe])] at hxs
          cases hxs
          exact ⟨hpe, hfacts hpe⟩



unseal List.merge List.mergeSort in
/-- Counterexample for C1 as stated: for five notes of value 10 and target
45 the pool total (50) reaches the target but no selection of at most 4
notes does (maximum 40), so the claim requires a failure ("no selection");
`utils::inputs` instead returns `Some` of an empty selection. -/
theorem c1_input_selection_counterexample :
    inputs poolFive10 45 = some [] ∧
    totalVal poolFive10 = 50 ∧
    ¬ coverExists 45 poolFive10 := by decide

unseal List.merge List.mergeSort in
/-- Counterexample for C2 as stated: five notes of value `2 ^ 62` with
target `2 ^ 63`; the first lexicographic combination already has
(mathematical) value sum `2 ^ 64 ≥ 2 ^ 63`, so the claim requires that
combination to be returned, but the `u64` combination sums wrap to 0 and
`pick_notes` returns the empty list. -/
theorem c2_pick_notes_counterexample :
    pick_notes (2 ^ 63) poolOverflow = [] ∧
    isCombo poolOverflow.length ⟨0, 1, 2, 3⟩ ∧
    2 ^ 63 ≤ comboSum (sortByValue poolOverflow) ⟨0, 1, 2, 3⟩ := by decide

unseal List.merge List.mergeSort in
/-- C2 (amended): for every pool of more than 4 notes whose total value
fits in `u64`, selection sorts the pool ascending by value and returns the
notes of the lexicographically first 4-index combination whose value sum
reaches the target (the empty list when no combination does); in
particular, selecting for target 20 from the pool with values
`{1, ..., 7}` yields a 4-note subset whose values sum to exactly 20. -/
theorem c2_pick_notes_lexicographic :
    (∀ (target : Nat) (pool : List Node), 4 < pool.length →
      totalVal pool ≤ U64MAX →
      (pick_notes target pool = [] ∧
        ∀ c, isCombo pool.length c → comboSum (sortByValue pool) c < target) ∨
      (∃ c, isCombo pool.length c ∧ target ≤ comboSum (sortByValue pool) c ∧
        (∀ c', isCombo pool.length c' → lexLt c' c →
          comboSum (sortByValue pool) c' < target) ∧
        pick_notes target pool = comboGet (sortByValue pool) c)) ∧
    (pick_notes 20 pool7).length = 4 ∧ totalVal (pick_notes 20 pool7) = 20 :=
  ⟨fun target pool h1 h2 => pick_notes_spec target pool h1 h2,
   by decide, by decide⟩

unseal List.merge List.mergeSort in
/-- Witness for C2 at the `note_picking_4_plus` pool and target 20. -/
theorem c2_pick_notes_witness :
    (pick_notes 20 pool7 = [] ∧
      ∀ c, isCombo pool7.length c → comboSum (sortByValue pool7) c < 20) ∨
    (∃ c, isCombo pool7.length c ∧ 20 ≤ comboSum (sortByValue pool7) c ∧
      (∀ c', isCombo pool7.length c' → lexLt c' c →
        comboSum (sortByValue pool7) c' < 20) ∧
      pick_notes 20 pool7 = comboGet (sortByValue pool7) c) :=
  c2_pick_notes_lexicographic.1 20 pool7 (by decide) (by decide)

/-- Witness for C1 at the five-tens pool and target 60. -/
theorem c1_input_selection_witness :
    inputs poolFive10 60 = none ↔ poolFive10 = [] ∨ totalVal poolFive10 < 60 :=
  (c1_input_selection poolFive10 60 (by decide)).1

end WalletCore
